import Mathlib

/-!
Verification of the Raft server core (SumiMakito/raft).

The definitions below are a shallow embedding of the Go sources:
`rpc.go` (the RPC handlers), the server core (`Server.appendLogs`,
`Server.commitAndApply`, `Server.runLoopCandidate`, `Server.startElection`,
`Server.Serve`, `Server.Apply`), and the example key-value state machine
(`StateMachine`, `KVSMSnapshot`).

Components of the repository that are referenced by those files but whose
code is not among the sources (the pluggable log store, the stable store,
the configuration store, the in-memory server-state getters) are modelled
from the specification; each such definition carries a doc comment starting
with "Modelled from the spec".  Machine integers (uint64) are modelled as
Nat: none of the verified paths performs arithmetic that can overflow a
64-bit counter in any reachable execution, and the spec describes indices
and terms as unbounded monotone counters.  Go panics (log gaps, confusing
conditions, nil dereferences) are modelled by returning `none`.
-/

namespace SpecRaft

/-- Server roles; the source orders them so that Follower is the lowest
role reachable by `stepdownFollower`. -/
inductive ServerRole
  | Follower
  | Candidate
  | Leader
  deriving DecidableEq

/-- Peer identity: `pb.Peer` is a pair of id and endpoint. -/
structure Peer where
  id : String
  endpoint : String
  deriving DecidableEq

/-- Modelled from the spec: a configuration's peer set (`pb.Config`),
a list of peers. -/
structure Config where
  peers : List Peer
  deriving DecidableEq

/-- Modelled from the spec: membership of a server id in a peer set. -/
def Config.containsId (c : Config) (id : String) : Bool :=
  c.peers.any (fun p => p.id == id)

/-- Modelled from the spec: a quorum is a strict majority of a peer set. -/
def Config.quorum (c : Config) : Nat :=
  c.peers.length / 2 + 1

/-- The wire form of a configuration (`pb.Configuration`): the current
peer set and, during joint consensus, the next peer set. -/
structure PBConfiguration where
  current : Config
  next : Option Config
  deriving DecidableEq

/-- Modelled from the spec: the configuration held by the configuration
store, a `pb.Configuration` together with the log index at which it was
appended. -/
structure Configuration where
  current : Config
  next : Option Config
  logIndex : Nat
  deriving DecidableEq

/-- Modelled from the spec: a configuration is joint when the next peer
set is present. -/
def Configuration.joint (c : Configuration) : Bool :=
  c.next.isSome

/-- Modelled from the spec: the current peer set of a configuration. -/
def Configuration.currentConfig (c : Configuration) : Config :=
  c.current

/-- Modelled from the spec: the next peer set of a joint configuration
(empty when absent). -/
def Configuration.nextConfig (c : Configuration) : Config :=
  c.next.getD ⟨[]⟩

/-- Modelled from the spec: the peers of a configuration are the union of
the current and next sets (per-peer replication in §4.5 uses this union). -/
def Configuration.peersList (c : Configuration) : List Peer :=
  c.current.peers ++
    (c.nextConfig.peers.filter (fun p => !(c.current.peers.any (fun q => q.id == p.id))))

/-- Modelled from the spec: look a peer up by id in a configuration
(`Latest().Peer(id)`); none plays the role of the nil peer. -/
def Configuration.peer (c : Configuration) (id : String) : Option Peer :=
  c.peersList.find? (fun p => p.id == id)

/-- Build a `Configuration` from a decoded `pb.Configuration` and the index
of the log entry that carried it (`newConfiguration` in the source). -/
def newConfiguration (pbc : PBConfiguration) (idx : Nat) : Configuration :=
  ⟨pbc.current, pbc.next, idx⟩

/-- Log body types (`pb.LogType`). -/
inductive LogType
  | command
  | configuration
  deriving DecidableEq

/-- A log body (`pb.LogBody`): a type tag and opaque data bytes.
The `confPayload` field models the external protobuf codec: it is the
`pb.Configuration` that `proto.Unmarshal` yields for `data`, and is `none`
when unmarshalling would fail.  This stands for a pure function of `data`
and is carried alongside because the codec itself is an external library. -/
structure LogBody where
  type : LogType
  data : List Nat
  confPayload : Option PBConfiguration
  deriving DecidableEq

/-- `LogBody.Copy` returns a value copy; values are immutable here. -/
def LogBody.copy (b : LogBody) : LogBody := b

/-- Log metadata (`pb.LogMeta`): the (index, term) pair of an entry. -/
structure LogMeta where
  index : Nat
  term : Nat
  deriving DecidableEq

/-- A stored log entry.  Modelled from the spec: the log store keeps a
contiguous sequence of entries starting at index 1 (§3, gaps are fatal),
so the store is a list with the entry of index i at position i-1 and the
index field kept implicit. -/
structure LogEntry where
  term : Nat
  body : LogBody
  deriving DecidableEq

/-- Modelled from the spec: the log store's last index (0 on an empty log). -/
def logLastIndex (log : List LogEntry) : Nat := log.length

/-- Modelled from the spec: the log store's entry lookup by index
(`logStore.Entry`); index 0 is never stored. -/
def logEntryAt (log : List LogEntry) (i : Nat) : Option LogEntry :=
  if i = 0 then none else log[i - 1]?

/-- Modelled from the spec: `logStore.DeleteAfter i` truncates the suffix
starting at index i (§4.4 step 5: "truncate the suffix starting at that
index"). -/
def logDeleteAfter (log : List LogEntry) (i : Nat) : List LogEntry :=
  log.take (i - 1)

/-- Modelled from the spec: `logStore.LastTermIndex` returns the term and
index of the last entry, (0, 0) on an empty log. -/
def logLastTermIndex (log : List LogEntry) : Nat × Nat :=
  match log.getLast? with
  | none => (0, 0)
  | some e => (e.term, log.length)

/-- The in-memory server state.  The fields mirror `Server`'s state
(`serverState`, `commitState`, the cluster-leader pointer, the
configuration store's latest and committed configurations, the vote
summary from the stable store).  `smApplied` records the commands handed
to the state machine in order; `queuedConfOps` records configuration
appends enqueued by `CommitTransition`; `reselectFlag` is the loop
reselect flag. -/
structure SrvState where
  id : String
  role : ServerRole
  currentTerm : Nat
  log : List LogEntry
  commitIndex : Nat
  lastAppliedIndex : Nat
  lastAppliedTerm : Nat
  lastVoteTerm : Nat
  lastVoteCandidate : String
  leader : Option Peer
  confLatest : Configuration
  confCommitted : Configuration
  smApplied : List (List Nat)
  queuedConfOps : List PBConfiguration
  reselectFlag : Bool
  deriving DecidableEq

/-- `Server.Leader().Id`: the id of the believed leader, with the nil peer
reading as the empty id. -/
def SrvState.leaderId (s : SrvState) : String :=
  match s.leader with
  | none => ""
  | some p => p.id

/-- `Server.alterLeader` / `setLeader` (a nil argument stores the nil
peer, modelled as none). -/
def alterLeader (s : SrvState) (p : Option Peer) : SrvState :=
  { s with leader := p }

/-- `Server.stepdownFollower`: store the leader and become Follower.  The
source's panic guard (`role < Follower`) cannot fire for the three roles
modelled here. -/
def stepdownFollower (s : SrvState) (p : Option Peer) : SrvState :=
  { s with leader := p, role := ServerRole.Follower }

/-- `Server.alterTerm` / `setCurrentTerm`. -/
def alterTerm (s : SrvState) (t : Nat) : SrvState :=
  { s with currentTerm := t }

/-- `Server.alterRole` / `setRole`. -/
def alterRole (s : SrvState) (r : ServerRole) : SrvState :=
  { s with role := r }

/-- `Server.setLastVoteSummary`: persist the (term, candidate) vote pair. -/
def setLastVoteSummary (s : SrvState) (t : Nat) (c : String) : SrvState :=
  { s with lastVoteTerm := t, lastVoteCandidate := c }

/-- The array position of the last CONFIGURATION body, if any (the final
value of `lastConfArrayIndex` in `Server.appendLogs` is the position of
the last configuration body, or the length when there is none). -/
def lastConfIdx? : List LogBody → Option Nat
  | [] => none
  | b :: rest =>
    match lastConfIdx? rest with
    | some j => some (j + 1)
    | none => if b.type = LogType.configuration then some 0 else none

/-- Whether `Server.appendLogs` returns an unmarshalling error for these
bodies: there is a configuration body and the last one fails to decode. -/
def appendFails (bodies : List LogBody) : Bool :=
  match lastConfIdx? bodies with
  | none => false
  | some j => (bodies[j]?.bind (fun b => b.confPayload)).isNone

/-- The metadata built by `Server.appendLogs`: the i-th body is assigned
index lastLogIndex + 1 + i and the server's current term. -/
def appendLogsMetas (s : SrvState) (bodies : List LogBody) : List LogMeta :=
  (List.range bodies.length).map (fun i => LogMeta.mk (logLastIndex s.log + 1 + i) s.currentTerm)

/-- The entries built by `Server.appendLogs`, one per body, stamped with
the server's current term (the index field is positional). -/
def appendLogsEntries (s : SrvState) (bodies : List LogBody) : List LogEntry :=
  bodies.map (fun b => LogEntry.mk s.currentTerm b.copy)

/-- `Server.appendLogs`: stamp each body with the next indices and the
server's current term, decode a trailing configuration body if present
(an undecodable configuration aborts with an error before anything is
appended), append to the log, and update the latest configuration (with a
loop reselect) when a configuration body was appended.  Returns the
appended metadata, or none for the error return. -/
def appendLogs (s : SrvState) (bodies : List LogBody) : Option (List LogMeta × SrvState) :=
  match lastConfIdx? bodies with
  | none => some (appendLogsMetas s bodies, { s with log := s.log ++ appendLogsEntries s bodies })
  | some j =>
    match bodies[j]?.bind (fun b => b.confPayload) with
    | none => none
    | some pbc =>
      some (appendLogsMetas s bodies,
        { s with
            log := s.log ++ appendLogsEntries s bodies
            confLatest := newConfiguration pbc (logLastIndex s.log + 1 + j)
            reselectFlag := true })

/-- Modelled from the spec (§4.3): `configurationStore.CommitTransition`
enqueues an append of the post-transition configuration, whose current set
is the previous next set and whose next set is absent.  The append goes
through the log-ops queue, recorded here in `queuedConfOps`. -/
def commitTransition (s : SrvState) : SrvState :=
  match s.confLatest.next with
  | none => s
  | some nxt => { s with queuedConfOps := s.queuedConfOps ++ [⟨nxt, none⟩] }

/-- The apply loop of `Server.commitAndApply`: walk indices from i for n
steps, feeding COMMAND bodies to the state machine, remembering the last
CONFIGURATION entry (with its index) and the term of the entry at the
final index.  A missing entry is a detected log gap (fatal), modelled as
none. -/
def applyRangeAux : Nat → Nat → SrvState → Option (Nat × LogBody) → Nat →
    Option (SrvState × Option (Nat × LogBody) × Nat)
  | 0, _, s, lastConf, commitTerm => some (s, lastConf, commitTerm)
  | Nat.succ n, i, s, lastConf, commitTerm =>
    match logEntryAt s.log i with
    | none => none
    | some e =>
      let commitTerm := if n = 0 then e.term else commitTerm
      match e.body.type with
      | LogType.command =>
        applyRangeAux n (i + 1) { s with smApplied := s.smApplied ++ [e.body.data] } lastConf commitTerm
      | LogType.configuration =>
        applyRangeAux n (i + 1) s (some (i, e.body)) commitTerm

/-- The cap of `Server.commitAndApply` (lines 250-253): the commit index
should never overflow the log index. -/
def capCommitIndex (s : SrvState) (commitIndex : Nat) : Nat :=
  if commitIndex > logLastIndex s.log then logLastIndex s.log else commitIndex

/-- The configuration part of `Server.commitAndApply` (lines 283-292),
run when the applied range held a configuration entry: commit a pending
joint transition whose entry this is, and record the committed
configuration (the ignored unmarshalling error yields the zero value). -/
def confCommitStep (s2 : SrvState) (ic : Nat × LogBody) : SrvState :=
  { (if s2.confLatest.joint = true ∧ s2.confLatest.logIndex = ic.1 then
      commitTransition s2
    else s2) with
      confCommitted := newConfiguration (ic.2.confPayload.getD ⟨⟨[]⟩, none⟩) ic.1 }

/-- `Server.commitAndApply`: cap the new commit index at the last log
index; if everything up to it is already applied do nothing, a commit
index behind the applied index is a confusing condition (fatal); otherwise
record the commit index, apply the entries up to it, process a trailing
configuration entry, and record the last applied (index, term). -/
def commitAndApply (s : SrvState) (commitIndex : Nat) : Option SrvState :=
  if s.lastAppliedIndex = capCommitIndex s commitIndex then some s
  else if s.lastAppliedIndex > capCommitIndex s commitIndex then none
  else
    match applyRangeAux (capCommitIndex s commitIndex - s.lastAppliedIndex)
        (s.lastAppliedIndex + 1) { s with commitIndex := capCommitIndex s commitIndex }
        none 0 with
    | none => none
    | some (s2, none, commitTerm) =>
      some { s2 with
              lastAppliedIndex := capCommitIndex s commitIndex
              lastAppliedTerm := commitTerm }
    | some (s2, some ic, commitTerm) =>
      some { confCommitStep s2 ic with
              lastAppliedIndex := capCommitIndex s commitIndex
              lastAppliedTerm := commitTerm }

/-- An entry of `pb.AppendEntriesRequest.Entries`: metadata plus body. -/
structure ReqEntry where
  index : Nat
  term : Nat
  body : LogBody
  deriving DecidableEq

/-- `pb.AppendEntriesRequest`. -/
structure AppendEntriesRequest where
  term : Nat
  leaderId : String
  prevLogIndex : Nat
  prevLogTerm : Nat
  entries : List ReqEntry
  leaderCommit : Nat
  deriving DecidableEq

/-- `pb.AppendEntriesResponse`. -/
structure AppendEntriesResponse where
  serverId : String
  term : Nat
  success : Bool
  deriving DecidableEq

/-- The conflict scan of `rpcHandler.AppendEntries` (lines 86-96): walk the
incoming entries while they lie inside the local log; stop cleanly when an
entry is past the last local index, stop with a clean-up index at the
first term mismatch.  Returns (firstAppendArrayIndex, firstCleanUpIndex);
a missing entry inside the log range is a nil dereference in the source,
modelled as none. -/
def scanEntries (log : List LogEntry) (lastLogIndex : Nat) :
    List ReqEntry → Nat → Option (Nat × Nat)
  | [], i => some (i, 0)
  | e :: rest, i =>
    if e.index > lastLogIndex then some (i, 0)
    else
      match logEntryAt log e.index with
      | none => none
      | some l =>
        if l.term ≠ e.term then some (i, e.index)
        else scanEntries log lastLogIndex rest (i + 1)

/-- Lines 57-60 of `rpcHandler.AppendEntries`: update the leader pointer
when it differs from the request's leader. -/
def aeLeaderUpdate (s0 : SrvState) (req : AppendEntriesRequest) : SrvState :=
  if s0.leaderId ≠ req.leaderId then alterLeader s0 (s0.confLatest.peer req.leaderId) else s0

/-- Lines 62-70: on a newer term, step down when not already a follower
and adopt the request term. -/
def aePrelude (s0 : SrvState) (req : AppendEntriesRequest) : SrvState :=
  if req.term > (aeLeaderUpdate s0 req).currentTerm then
    alterTerm
      (if (aeLeaderUpdate s0 req).role ≠ ServerRole.Follower then
        stepdownFollower (aeLeaderUpdate s0 req)
          ((aeLeaderUpdate s0 req).confLatest.peer req.leaderId)
       else aeLeaderUpdate s0 req)
      req.term
  else aeLeaderUpdate s0 req

/-- Lines 72-79: the previous-log check. -/
def aePrevOk (s : SrvState) (req : AppendEntriesRequest) : Bool :=
  if req.prevLogIndex > 0 then
    match logEntryAt s.log req.prevLogIndex with
    | none => false
    | some l => req.prevLogTerm == l.term
  else true

/-- Lines 97-99 of `rpcHandler.AppendEntries`: delete the conflicting
suffix when a positive clean-up index was found. -/
def aeTruncate (s : SrvState) (firstCleanUpIndex : Nat) : SrvState :=
  if firstCleanUpIndex > 0 then { s with log := logDeleteAfter s.log firstCleanUpIndex } else s

/-- Lines 81-106: the entries step.  Scan for conflicts when the first
incoming entry lies inside the local log, truncate from the clean-up index
when a conflict was found, then hand the remaining bodies to
`Server.appendLogs` (whose error return is ignored by the handler). -/
def aeEntriesStep (s : SrvState) (entries : List ReqEntry) : Option SrvState :=
  match entries with
  | [] => some s
  | e0 :: _ =>
    match (if e0.index ≤ logLastIndex s.log then
        scanEntries s.log (logLastIndex s.log) entries 0
      else some (0, 0)) with
    | none => none
    | some fc =>
      match appendLogs (aeTruncate s fc.2) ((entries.drop fc.1).map (fun e => e.body.copy)) with
      | none => some (aeTruncate s fc.2)
      | some r => some r.2

/-- Lines 108-112: when the leader commit is ahead, trigger the
commit-and-apply step (delivered through the commit channel to the main
loop; composed synchronously here, §5: a single mutator services one event
at a time). -/
def aeCommitStep (s : SrvState) (leaderCommit : Nat) : Option SrvState :=
  if leaderCommit > s.commitIndex then commitAndApply s leaderCommit else some s

/-- `rpcHandler.AppendEntries`: the full handler.  A stale term is
rejected with the current term; otherwise the prelude, the previous-log
check, the entries step and the commit step run in order and the reply is
a success carrying the (possibly adopted) term. -/
def handleAppendEntries (s0 : SrvState) (req : AppendEntriesRequest) :
    Option (SrvState × AppendEntriesResponse) :=
  if req.term < s0.currentTerm then
    some (s0, AppendEntriesResponse.mk s0.id s0.currentTerm false)
  else if aePrevOk (aePrelude s0 req) req = false then
    some (aePrelude s0 req, AppendEntriesResponse.mk s0.id (aePrelude s0 req).currentTerm false)
  else
    match aeEntriesStep (aePrelude s0 req) req.entries with
    | none => none
    | some s3 =>
      match aeCommitStep s3 req.leaderCommit with
      | none => none
      | some s4 =>
        some (s4, AppendEntriesResponse.mk s0.id (aePrelude s0 req).currentTerm true)

/-- `pb.RequestVoteRequest`. -/
structure RequestVoteRequest where
  term : Nat
  candidateId : String
  lastLogIndex : Nat
  lastLogTerm : Nat
  deriving DecidableEq

/-- `pb.RequestVoteResponse`. -/
structure RequestVoteResponse where
  serverId : String
  term : Nat
  granted : Bool
  deriving DecidableEq

/-- `rpcHandler.RequestVote`, together with a ghost trace of the vote
records it makes (the (term, candidate) pairs passed to
`setLastVoteSummary`): reject a stale term; if a vote was already made in
the current term grant exactly when the recorded candidate matches; on a
newer term step down and adopt it; grant only when the candidate's log is
at least as up to date as the local log, recording the vote. -/
def handleRequestVoteT (s0 : SrvState) (req : RequestVoteRequest) :
    SrvState × RequestVoteResponse × List (Nat × String) :=
  if req.term < s0.currentTerm then
    (s0, RequestVoteResponse.mk s0.id s0.currentTerm false, [])
  else if s0.currentTerm ≤ s0.lastVoteTerm then
    (s0, RequestVoteResponse.mk s0.id s0.currentTerm (s0.lastVoteCandidate == req.candidateId), [])
  else
    let s1 :=
      if req.term > s0.currentTerm then
        alterTerm (if s0.role ≠ ServerRole.Follower then stepdownFollower s0 none else s0) req.term
      else s0
    let lastTI := logLastTermIndex s1.log
    if req.lastLogTerm < lastTI.1 then
      (s1, RequestVoteResponse.mk s0.id s1.currentTerm false, [])
    else if req.lastLogTerm = lastTI.1 ∧ req.lastLogIndex < lastTI.2 then
      (s1, RequestVoteResponse.mk s0.id s1.currentTerm false, [])
    else
      (setLastVoteSummary s1 s1.currentTerm req.candidateId,
        RequestVoteResponse.mk s0.id s1.currentTerm true,
        [(s1.currentTerm, req.candidateId)])

/-- `rpcHandler.RequestVote` without the ghost trace. -/
def handleRequestVote (s0 : SrvState) (req : RequestVoteRequest) :
    SrvState × RequestVoteResponse :=
  ((handleRequestVoteT s0 req).1, (handleRequestVoteT s0 req).2.1)

/-- The vote-affecting part of `Server.startElection` (lines 586-587):
advance the term by one and durably vote for self, with the ghost record
of that vote. -/
def startElectionVote (s : SrvState) : SrvState × List (Nat × String) :=
  let s1 := alterTerm s (s.currentTerm + 1)
  let s2 := setLastVoteSummary s1 s1.currentTerm s.id
  (s2, [(s1.currentTerm, s.id)])

/-- An operation that can record a vote: an incoming RequestVote, or the
self-vote at election start. -/
inductive VoteOp
  | requestVote (req : RequestVoteRequest)
  | electSelf
  deriving DecidableEq

/-- One vote-affecting operation with its recorded votes. -/
def voteStep (s : SrvState) : VoteOp → SrvState × List (Nat × String)
  | VoteOp.requestVote req =>
    ((handleRequestVoteT s req).1, (handleRequestVoteT s req).2.2)
  | VoteOp.electSelf => startElectionVote s

/-- Run a sequence of vote-affecting operations, collecting every vote
record made along the way. -/
def voteRun (s : SrvState) : List VoteOp → SrvState × List (Nat × String)
  | [] => (s, [])
  | op :: ops =>
    ((voteRun (voteStep s op).1 ops).1,
      (voteStep s op).2 ++ (voteRun (voteStep s op).1 ops).2)

/-- The vote-response tally of `Server.runLoopCandidate` (lines 456-513),
processing a sequence of received `RequestVoteResponse`s: a response with
a newer term aborts the election and adopts the term; otherwise the
response bumps the tally of every configuration set containing its sender,
and the candidate wins (altering its role to Leader and the leader pointer
to itself) once the tallies reach the quorum of the current set, and of
the next set as well when the configuration is joint.  The response list
stands for the successive receives on the vote channel; an exhausted list
leaves the candidate waiting (the timer path). -/
def runCandidateTally (s : SrvState) (c : Configuration) :
    List RequestVoteResponse → Nat → Nat → SrvState
  | [], _, _ => s
  | r :: rest, currentVotes, nextVotes =>
    if r.term > s.currentTerm then alterTerm s r.term
    else
      let currentVotes :=
        if c.currentConfig.containsId r.serverId then currentVotes + 1 else currentVotes
      let nextVotes :=
        if c.joint = true ∧ c.nextConfig.containsId r.serverId then nextVotes + 1 else nextVotes
      if c.joint = false then
        if currentVotes ≥ c.currentConfig.quorum then
          alterLeader (alterRole s ServerRole.Leader) (s.confLatest.peer s.id)
        else runCandidateTally s c rest currentVotes nextVotes
      else
        if currentVotes ≥ c.currentConfig.quorum ∧ nextVotes ≥ c.nextConfig.quorum then
          alterLeader (alterRole s ServerRole.Leader) (s.confLatest.peer s.id)
        else runCandidateTally s c rest currentVotes nextVotes

/-- The granted responses among a tally sequence (what the claims count as
votes). -/
def grantedResponses (rs : List RequestVoteResponse) : List RequestVoteResponse :=
  rs.filter (fun r => r.granted)

/-- Modelled from the spec (§7): `ErrNonLeader` is a package-level error
value; its message is a fixed string that cannot depend on the state of
any particular server. -/
def errNonLeader : String := "node is not a leader"

/-- The reply of `rpcHandler.ApplyLog`: on a non-leader the reply is the
fixed `ErrNonLeader` error text; on a leader the request is handed to
`Server.Apply` (a concurrent future outside this step model). -/
inductive ApplyLogReply
  | errorText (e : String)
  | delegatedToApply
  deriving DecidableEq

/-- `rpcHandler.ApplyLog` (lines 184-209), up to the leader-path future. -/
def handleApplyLog (s : SrvState) : ApplyLogReply :=
  if s.role ≠ ServerRole.Leader then ApplyLogReply.errorText errNonLeader
  else ApplyLogReply.delegatedToApply

/-- The body carried by a non-nil `pb.ApplyLogResponse`: either appended
metadata or an error text. -/
inductive ApplyLogRespBody
  | meta (m : LogMeta)
  | errorText (e : String)
  deriving DecidableEq

/-- Events of the proxy goroutine in `Server.Apply` (lines 662-675), in
order: completions of the returned future, a nil-pointer dereference, or a
clean return. -/
inductive ProxyEvent
  | completed (r : Except String LogMeta)
  | nilPointerRead
  | returned

/-- The proxy goroutine of `Server.Apply` on a non-leader: it calls
`trans.ApplyLog` and receives either an error with a nil response (the
source transport `GRPCTransport.ApplyLog` returns `nil, err` on every
error) or a non-nil response.  On an error the future is completed with
the error, and because the error branch does not return, control falls
through to the switch on the nil response's `Response` field. -/
def applyProxyEvents : Except String (Option ApplyLogRespBody) → List ProxyEvent
  | Except.error e => [ProxyEvent.completed (Except.error e), ProxyEvent.nilPointerRead]
  | Except.ok none => [ProxyEvent.nilPointerRead]
  | Except.ok (some (ApplyLogRespBody.meta m)) =>
    [ProxyEvent.completed (Except.ok m), ProxyEvent.returned]
  | Except.ok (some (ApplyLogRespBody.errorText e)) =>
    [ProxyEvent.completed (Except.error e), ProxyEvent.returned]

/-- Outcomes of the configuration check at the top of `Server.Serve`
(lines 750-788). -/
inductive ServeOutcome
  | fatalNotInPeerList
  | fatalEndpointMismatch
  | bootstrapAsFirstNode
  | proceeds
  deriving DecidableEq

/-- The peer-list loop of `Server.Serve`: stop at the first peer sharing
the server's id; a differing endpoint there is the confusing-condition
fatal branch (none); otherwise the loop breaks, and `selfRegistered` is
never assigned, so the returned flag is always false. -/
def serveSelfCheckLoop (selfId selfEndpoint : String) : List Peer → Option Bool
  | [] => some false
  | p :: rest =>
    if selfId = p.id then
      if selfEndpoint ≠ p.endpoint then none
      else some false
    else serveSelfCheckLoop selfId selfEndpoint rest

/-- The configuration check of `Server.Serve`: with a non-empty peer list
run the self-check loop and fall into the not-in-peer-list fatal branch
when the flag is false; with an empty list bootstrap as the first node. -/
def serveConfigCheck (selfId selfEndpoint : String) (c : Configuration) : ServeOutcome :=
  if c.peersList.length > 0 then
    match serveSelfCheckLoop selfId selfEndpoint c.peersList with
    | none => ServeOutcome.fatalEndpointMismatch
    | some selfRegistered =>
      if selfRegistered = false then ServeOutcome.fatalNotInPeerList
      else ServeOutcome.proceeds
  else ServeOutcome.bootstrapAsFirstNode

/-- Modelled from the spec: the external msgpack codec used by the example
key-value state machine serialises a key-value map into bytes.  Keys and
values are byte strings (Go strings are immutable byte sequences); a chunk
is length-prefixed. -/
def encodeChunk (b : List Nat) : List Nat := b.length :: b

/-- Encoding of one key-value pair. -/
def encodePair (kv : List Nat × List Nat) : List Nat :=
  encodeChunk kv.1 ++ encodeChunk kv.2

/-- Encoding of a pair list. -/
def encodePairs : List (List Nat × List Nat) → List Nat
  | [] => []
  | kv :: rest => encodePair kv ++ encodePairs rest

/-- Modelled from the spec: the codec's encoder writes the count followed
by the encoded pairs. -/
def msgpackEncode (kvs : List (List Nat × List Nat)) : List Nat :=
  kvs.length :: encodePairs kvs

/-- Decoder for one length-prefixed chunk. -/
def decodeChunk : List Nat → Option (List Nat × List Nat)
  | [] => none
  | n :: rest => if n ≤ rest.length then some (rest.take n, rest.drop n) else none

/-- Decoder for a counted pair list, returning the remainder. -/
def decodePairs : Nat → List Nat → Option (List (List Nat × List Nat) × List Nat)
  | 0, rest => some ([], rest)
  | Nat.succ m, rest =>
    match decodeChunk rest with
    | none => none
    | some kr =>
      match decodeChunk kr.2 with
      | none => none
      | some vr =>
        match decodePairs m vr.2 with
        | none => none
        | some pr => some ((kr.1, vr.1) :: pr.1, pr.2)

/-- Modelled from the spec: the codec's decoder reads the count and that
many pairs from the front of the stream. -/
def msgpackDecode (b : List Nat) : Option (List (List Nat × List Nat)) :=
  match b with
  | [] => none
  | n :: rest => (decodePairs n rest).map (fun pr => pr.1)

/-- The example key-value state machine (`StateMachine` in the kvstore
example): an applied (index, term) and the key-value map, represented as
an association list in insertion order (Go map iteration order is
abstracted to this canonical order). -/
structure KVStateMachine where
  index : Nat
  term : Nat
  states : List (List Nat × List Nat)
  deriving DecidableEq

/-- `StateMachine.Snapshot` copies the map into a `KVSMSnapshot` at the
machine's applied (index, term). -/
structure KVSMSnapshot where
  index : Nat
  term : Nat
  keyValues : List (List Nat × List Nat)
  deriving DecidableEq

/-- The value-copying loop shared by `Snapshot` and `KeyValues`. -/
def kvCopy (kvs : List (List Nat × List Nat)) : List (List Nat × List Nat) :=
  kvs.map (fun kv => (kv.1, kv.2))

/-- `StateMachine.Snapshot`. -/
def KVStateMachine.snapshot (m : KVStateMachine) : KVSMSnapshot :=
  ⟨m.index, m.term, kvCopy m.states⟩

/-- `KVSMSnapshot.Write`: encode the captured map into the sink, then
write the `out` buffer, which the source never populates, so the extra
write carries zero bytes. -/
def KVSMSnapshot.write (snap : KVSMSnapshot) (sink : List Nat) : List Nat :=
  let out : List Nat := []
  (sink ++ msgpackEncode snap.keyValues) ++ out

/-- `NewStateMachine`: the fresh machine with an empty map. -/
def newKVStateMachine : KVStateMachine := ⟨0, 0, []⟩

/-- `StateMachine.Restore`: decode a key-value map from the snapshot bytes
and install it as the machine's map (a decode failure is the error
return). -/
def KVStateMachine.restore (m : KVStateMachine) (bytes : List Nat) : Option KVStateMachine :=
  (msgpackDecode bytes).map (fun kvs => { m with states := kvs })

/-- An empty configuration used by concrete test states. -/
def emptyConfiguration : Configuration := ⟨⟨[]⟩, none, 0⟩

/-- A baseline concrete server state for the concrete theorems below. -/
def baseState : SrvState where
  id := "a"
  role := ServerRole.Follower
  currentTerm := 0
  log := []
  commitIndex := 0
  lastAppliedIndex := 0
  lastAppliedTerm := 0
  lastVoteTerm := 0
  lastVoteCandidate := ""
  leader := none
  confLatest := emptyConfiguration
  confCommitted := emptyConfiguration
  smApplied := []
  queuedConfOps := []
  reselectFlag := false

/-- A concrete command body. -/
def cmdBody (x : Nat) : LogBody := ⟨LogType.command, [x], none⟩

/-- The value-copy loop is the identity on the pure representation. -/
theorem kvCopy_eq (kvs : List (List Nat × List Nat)) : kvCopy kvs = kvs := by
  simp [kvCopy]

/-- Decoding a length-prefixed chunk recovers the chunk and the rest. -/
theorem decodeChunk_encodeChunk (b r : List Nat) :
    decodeChunk (encodeChunk b ++ r) = some (b, r) := by
  simp [decodeChunk, encodeChunk, List.take_left, List.drop_left]

/-- Decoding a counted pair list recovers the pairs and the rest. -/
theorem decodePairs_encodePairs (kvs : List (List Nat × List Nat)) (r : List Nat) :
    decodePairs kvs.length (encodePairs kvs ++ r) = some (kvs, r) := by
  induction kvs generalizing r with
  | nil => simp [decodePairs, encodePairs]
  | cons kv rest ih =>
    simp only [List.length_cons, encodePairs, encodePair, List.append_assoc, decodePairs,
      decodeChunk_encodeChunk, ih]

/-- The codec round trip: decoding an encoded key-value map recovers it. -/
theorem msgpackDecode_msgpackEncode (kvs : List (List Nat × List Nat)) :
    msgpackDecode (msgpackEncode kvs) = some kvs := by
  have h := decodePairs_encodePairs kvs []
  simp only [List.append_nil] at h
  simp [msgpackDecode, msgpackEncode, h]

/-- C8: snapshot capture followed by restore is a round trip on the
key-value state machine.  Writing the snapshot produced by `Snapshot()`
appends exactly one copy of the encoded key-value map to the sink (the
additional `sink.Write(out)` in the source writes the never-populated
`out` buffer, which is empty), and restoring a fresh machine from those
bytes yields a key-value map equal to the original machine's map; the
snapshot carries the machine's applied index. -/
theorem snapshot_restore_roundtrip (m : KVStateMachine) (sink : List Nat) :
    m.snapshot.write sink = sink ++ msgpackEncode m.states ∧
    newKVStateMachine.restore (m.snapshot.write []) =
      some { newKVStateMachine with states := m.states } ∧
    m.snapshot.index = m.index := by
  refine ⟨?_, ?_, rfl⟩
  · simp [KVSMSnapshot.write, KVStateMachine.snapshot, kvCopy_eq]
  · simp [KVSMSnapshot.write, KVStateMachine.snapshot, kvCopy_eq, KVStateMachine.restore,
      msgpackDecode_msgpackEncode]

/-- C10: on the non-leader proxy path of `Server.Apply`, a transport call
returning a non-nil error first completes the future with that error and
then falls through into the switch on the nil response, reading a field of
a nil pointer; the goroutine never reaches a clean return. -/
theorem apply_proxy_error_falls_through (e : String) :
    applyProxyEvents (Except.error e) =
      [ProxyEvent.completed (Except.error e), ProxyEvent.nilPointerRead] ∧
    ProxyEvent.returned ∉ applyProxyEvents (Except.error e) := by
  refine ⟨rfl, ?_⟩
  simp [applyProxyEvents]

/-- C6: the reply of `rpcHandler.ApplyLog` on a non-leader is the fixed
`ErrNonLeader` error text, identical for any two non-leader states, so it
cannot carry the currently known leader id. -/
theorem applyLog_nonleader_reply_constant (s t : SrvState)
    (hs : s.role ≠ ServerRole.Leader) (ht : t.role ≠ ServerRole.Leader) :
    handleApplyLog s = ApplyLogReply.errorText errNonLeader ∧
    handleApplyLog s = handleApplyLog t := by
  simp [handleApplyLog, hs, ht]

/-- Witness for the C6 theorem: two follower states that know different
leaders receive the same constant reply. -/
theorem applyLog_nonleader_reply_constant_witness :
    handleApplyLog { baseState with leader := some ⟨"b", "eb"⟩ } =
      ApplyLogReply.errorText errNonLeader ∧
    handleApplyLog { baseState with leader := some ⟨"b", "eb"⟩ } =
      handleApplyLog { baseState with leader := some ⟨"c", "ec"⟩ } :=
  applyLog_nonleader_reply_constant
    { baseState with leader := some ⟨"b", "eb"⟩ }
    { baseState with leader := some ⟨"c", "ec"⟩ }
    (by decide) (by decide)

/-- C1, failing input: a follower at term 1 accepts an AppendEntries of
term 2 whose single entry carries (index 1, term 1); the handler reports
success, and the entry is stored at index 1 but stamped with the
follower's adopted term 2 instead of the entry's own term 1, because
`Server.appendLogs` discards the incoming metadata. -/
theorem appendEntries_restamps_entry_terms :
    (⟨2, "L", 0, 0, [⟨1, 1, cmdBody 7⟩], 0⟩ : AppendEntriesRequest).entries.map ReqEntry.term =
      [1] ∧
    ((handleAppendEntries { baseState with currentTerm := 1 }
        ⟨2, "L", 0, 0, [⟨1, 1, cmdBody 7⟩], 0⟩).map
      (fun pr => (pr.2.success, pr.1.log.map LogEntry.term))) = some (true, [2]) := by
  decide

/-- The configuration {a, b, c} used by the candidate-tally evaluation. -/
def tallyConf : Configuration := ⟨⟨[⟨"a", "ea"⟩, ⟨"b", "eb"⟩, ⟨"c", "ec"⟩]⟩, none, 0⟩

/-- The candidate state used by the candidate-tally evaluation. -/
def tallyState : SrvState :=
  { baseState with
      role := ServerRole.Candidate
      currentTerm := 1
      confLatest := tallyConf }

/-- C2, failing input: a candidate in the three-peer configuration
{a, b, c} processes its own granted vote followed by a response from b
with granted = false at the same term; the tally loop never consults the
granted field, reaches quorum 2 with only one granted vote, and the
candidate becomes Leader. -/
theorem candidate_wins_without_granted_majority :
    (runCandidateTally tallyState tallyConf
        [⟨"a", 1, true⟩, ⟨"b", 1, false⟩] 0 0).role = ServerRole.Leader ∧
    (grantedResponses [⟨"a", 1, true⟩, ⟨"b", 1, false⟩]).length = 1 ∧
    tallyConf.currentConfig.quorum = 2 := by
  decide

/-- Counterexample to C9 as stated: a server whose configuration's
non-empty peer list pairs the server's own id with a different endpoint
hits the confusing-condition fatal branch, not the not-in-peer-list one. -/
theorem serve_counterexample_endpoint_mismatch :
    (⟨⟨[⟨"a", "e2"⟩]⟩, none, 0⟩ : Configuration).peersList.length > 0 ∧
    serveConfigCheck "a" "e1" ⟨⟨[⟨"a", "e2"⟩]⟩, none, 0⟩ = ServeOutcome.fatalEndpointMismatch ∧
    serveConfigCheck "a" "e1" ⟨⟨[⟨"a", "e2"⟩]⟩, none, 0⟩ ≠ ServeOutcome.fatalNotInPeerList := by
  decide

/-- The peer-list loop leaves `selfRegistered` false whenever no peer
pairs the server's id with a foreign endpoint. -/
theorem serveSelfCheckLoop_never_registers (selfId selfEndpoint : String) :
    ∀ ps : List Peer, (∀ p ∈ ps, p.id = selfId → p.endpoint = selfEndpoint) →
      serveSelfCheckLoop selfId selfEndpoint ps = some false := by
  intro ps
  induction ps with
  | nil => intro _; rfl
  | cons p rest ih =>
    intro h
    by_cases hid : selfId = p.id
    · have hep : p.endpoint = selfEndpoint := h p (List.mem_cons_self p rest) hid.symm
      simp [serveSelfCheckLoop, hid, hep]
    · simpa [serveSelfCheckLoop, hid] using
        ih (fun q hq => h q (List.mem_cons_of_mem p hq))

/-- C9 (amended): for every `Serve()` whose latest configuration has a
non-empty peer list in which no peer pairs the server's id with a foreign
endpoint, the self-registration check falls into the not-in-peer-list
fatal branch, even when a peer matching both id and endpoint is present,
because `selfRegistered` is never set to true on a successful match. -/
theorem serve_always_not_in_peer_list (selfId selfEndpoint : String) (c : Configuration)
    (hne : c.peersList.length > 0)
    (hdup : ∀ p ∈ c.peersList, p.id = selfId → p.endpoint = selfEndpoint) :
    serveConfigCheck selfId selfEndpoint c = ServeOutcome.fatalNotInPeerList := by
  simp [serveConfigCheck, hne, serveSelfCheckLoop_never_registers selfId selfEndpoint _ hdup]

/-- Witness for the C9 theorem: the peer list contains a peer matching the
server's id and endpoint, yet Serve reports the server as not present. -/
theorem serve_always_not_in_peer_list_witness :
    (⟨⟨[⟨"a", "e1"⟩]⟩, none, 0⟩ : Configuration).peersList.length > 0 ∧
    serveConfigCheck "a" "e1" ⟨⟨[⟨"a", "e1"⟩]⟩, none, 0⟩ = ServeOutcome.fatalNotInPeerList :=
  ⟨by decide, serve_always_not_in_peer_list "a" "e1" ⟨⟨[⟨"a", "e1"⟩]⟩, none, 0⟩
    (by decide) (by decide)⟩

/-- The term-adoption step of `RequestVote` leaves the log unchanged. -/
theorem requestVote_step_log (s : SrvState) (req : RequestVoteRequest) :
    (if req.term > s.currentTerm then
        alterTerm (if s.role ≠ ServerRole.Follower then stepdownFollower s none else s) req.term
      else s).log = s.log := by
  by_cases h : req.term > s.currentTerm <;>
    by_cases hr : s.role ≠ ServerRole.Follower <;>
      simp [h, hr, alterTerm, stepdownFollower]

/-- C5: for a RequestVote whose term is not stale, on a server that has
not voted in its current term, the vote is granted exactly when the
candidate's log is at least as up to date as the local log:
its last term is newer, or the last terms are equal and its last index is
at least the local last index. -/
theorem requestVote_grant_iff_up_to_date (s : SrvState) (req : RequestVoteRequest)
    (h1 : s.currentTerm ≤ req.term) (h2 : s.lastVoteTerm < s.currentTerm) :
    ((handleRequestVote s req).2.granted = true) ↔
      ((logLastTermIndex s.log).1 < req.lastLogTerm ∨
        ((logLastTermIndex s.log).1 = req.lastLogTerm ∧
          (logLastTermIndex s.log).2 ≤ req.lastLogIndex)) := by
  have hn1 : ¬ req.term < s.currentTerm := Nat.not_lt.mpr h1
  have hn2 : ¬ s.currentTerm ≤ s.lastVoteTerm := Nat.not_le.mpr h2
  unfold handleRequestVote handleRequestVoteT
  rw [if_neg hn1, if_neg hn2]
  by_cases hgt : s.currentTerm < req.term <;>
    by_cases hrole : s.role ≠ ServerRole.Follower <;>
      simp only [gt_iff_lt, hgt, hrole, if_true, if_false, ite_true, ite_false,
        alterTerm, stepdownFollower] <;>
      split_ifs with hA hB <;>
      simp_all <;>
      omega

/-- Witness for the C5 theorem: a server at term 1 with one term-1 entry
and no vote this term grants to a candidate whose last log is (term 1,
index 2). -/
theorem requestVote_grant_iff_up_to_date_witness :
    ((handleRequestVote
        { baseState with currentTerm := 1, log := [⟨1, cmdBody 7⟩] }
        ⟨1, "b", 2, 1⟩).2.granted = true) ↔
      ((logLastTermIndex [⟨1, cmdBody 7⟩]).1 < 1 ∨
        ((logLastTermIndex [⟨1, cmdBody 7⟩]).1 = 1 ∧
          (logLastTermIndex [⟨1, cmdBody 7⟩]).2 ≤ 2)) :=
  requestVote_grant_iff_up_to_date
    { baseState with currentTerm := 1, log := [⟨1, cmdBody 7⟩] }
    ⟨1, "b", 2, 1⟩ (by decide) (by decide)


/-- The server-state components that the entries step never touches. -/
def viewA (s : SrvState) :=
  (s.id, s.role, s.currentTerm, s.commitIndex, s.lastAppliedIndex, s.lastAppliedTerm,
   s.lastVoteTerm, s.lastVoteCandidate, s.leader, s.smApplied, s.queuedConfOps, s.confCommitted)

/-- The server-state components that commit-and-apply never touches. -/
def viewB (s : SrvState) :=
  (s.id, s.role, s.currentTerm, s.log, s.leader, s.lastVoteTerm, s.lastVoteCandidate,
   s.confLatest)

/-- The server-state components that the AppendEntries prelude never
touches. -/
def viewC (s : SrvState) :=
  (s.id, s.log, s.commitIndex, s.lastAppliedIndex, s.lastAppliedTerm, s.smApplied,
   s.confLatest, s.confCommitted, s.queuedConfOps, s.lastVoteTerm, s.lastVoteCandidate,
   s.reselectFlag)

/-- The leader update touches only the leader pointer. -/
theorem aeLeaderUpdate_inv (s : SrvState) (req : AppendEntriesRequest) :
    viewC (aeLeaderUpdate s req) = viewC s ∧
    (aeLeaderUpdate s req).currentTerm = s.currentTerm ∧
    (aeLeaderUpdate s req).role = s.role := by
  unfold aeLeaderUpdate alterLeader viewC
  split_ifs <;> exact ⟨rfl, rfl, rfl⟩

/-- The AppendEntries prelude touches only the leader pointer, the role
and the current term. -/
theorem aePrelude_viewC (s : SrvState) (req : AppendEntriesRequest) :
    viewC (aePrelude s req) = viewC s := by
  unfold aePrelude alterTerm stepdownFollower
  split_ifs <;> exact (aeLeaderUpdate_inv s req).1

/-- With a non-stale request, the prelude leaves the current term equal to
the request term. -/
theorem aePrelude_term (s : SrvState) (req : AppendEntriesRequest)
    (h : ¬ req.term < s.currentTerm) : (aePrelude s req).currentTerm = req.term := by
  have hct := (aeLeaderUpdate_inv s req).2.1
  unfold aePrelude
  split_ifs with h1 h2
  · rfl
  · rfl
  · rw [hct]
    rw [hct] at h1
    omega

/-- With a request whose term is not newer, the prelude changes neither
the term nor the role. -/
theorem aePrelude_noBump (s : SrvState) (req : AppendEntriesRequest)
    (h : ¬ s.currentTerm < req.term) :
    (aePrelude s req).currentTerm = s.currentTerm ∧ (aePrelude s req).role = s.role := by
  have hL := aeLeaderUpdate_inv s req
  unfold aePrelude
  split_ifs with h1 h2
  · rw [hL.2.1] at h1
    omega
  · rw [hL.2.1] at h1
    omega
  · exact ⟨hL.2.1, hL.2.2⟩

/-- Inversion for `Server.appendLogs`: on success the log grows by the
bodies stamped with the current term and everything outside the log, the
latest configuration and the reselect flag is unchanged. -/
theorem appendLogs_inv (s : SrvState) (bodies : List LogBody) (ms : List LogMeta)
    (s' : SrvState) (h : appendLogs s bodies = some (ms, s')) :
    s'.log = s.log ++ appendLogsEntries s bodies ∧ viewA s' = viewA s := by
  unfold appendLogs at h
  split at h
  · simp only [Option.some.injEq, Prod.mk.injEq] at h
    rw [← h.2]
    exact ⟨rfl, rfl⟩
  · split at h
    · exact Option.noConfusion h
    · simp only [Option.some.injEq, Prod.mk.injEq] at h
      rw [← h.2]
      exact ⟨rfl, rfl⟩

/-- Failure of `Server.appendLogs` depends only on the bodies. -/
theorem appendLogs_fails_iff (s : SrvState) (bodies : List LogBody) :
    appendLogs s bodies = none ↔ appendFails bodies = true := by
  unfold appendLogs appendFails
  rcases hlc : lastConfIdx? bodies with _ | j
  · simp
  · rcases hp : bodies[j]?.bind (fun b => b.confPayload) with _ | pbc <;> simp [hp]

/-- Truncation changes only the log. -/
theorem aeTruncate_inv (s : SrvState) (c : Nat) :
    viewA (aeTruncate s c) = viewA s ∧ (aeTruncate s c).confLatest = s.confLatest ∧
    (aeTruncate s c).currentTerm = s.currentTerm ∧
    (aeTruncate s c).reselectFlag = s.reselectFlag := by
  unfold aeTruncate viewA
  split_ifs <;> exact ⟨rfl, rfl, rfl, rfl⟩

/-- The entries step never touches the commit state, the term, the role,
the leader pointer or the vote summary. -/
theorem aeEntriesStep_viewA (s : SrvState) (entries : List ReqEntry) (s' : SrvState)
    (h : aeEntriesStep s entries = some s') : viewA s' = viewA s := by
  rcases entries with _ | ⟨e0, rest⟩
  · simp only [aeEntriesStep, Option.some.injEq] at h
    rw [← h]
  · simp only [aeEntriesStep] at h
    split at h
    · exact Option.noConfusion h
    · rename_i fc hscan
      split at h
      · rename_i happ
        simp only [Option.some.injEq] at h
        rw [← h]
        exact (aeTruncate_inv s fc.2).1
      · rename_i r happ
        obtain ⟨rm, rs⟩ := r
        simp only [Option.some.injEq] at h
        rw [← h]
        have hinv := appendLogs_inv (aeTruncate s fc.2) _ rm rs happ
        exact hinv.2.trans (aeTruncate_inv s fc.2).1

/-- The apply loop threads the state, changing only the applied-command
record. -/
theorem applyRangeAux_inv (n : Nat) :
    ∀ (i : Nat) (s : SrvState) (lc : Option (Nat × LogBody)) (ct : Nat)
      (s2 : SrvState) (lc2 : Option (Nat × LogBody)) (ct2 : Nat),
      applyRangeAux n i s lc ct = some (s2, lc2, ct2) →
      viewB s2 = viewB s ∧ s2.commitIndex = s.commitIndex ∧
      s2.lastAppliedIndex = s.lastAppliedIndex ∧ s2.confCommitted = s.confCommitted := by
  induction n with
  | zero =>
    intro i s lc ct s2 lc2 ct2 h
    simp only [applyRangeAux, Option.some.injEq, Prod.mk.injEq] at h
    rw [← h.1]
    exact ⟨rfl, rfl, rfl, rfl⟩
  | succ n ih =>
    intro i s lc ct s2 lc2 ct2 h
    simp only [applyRangeAux] at h
    split at h
    · exact Option.noConfusion h
    · rename_i e he
      split at h
      · exact ih (i + 1) { s with smApplied := s.smApplied ++ [e.body.data] } lc
          (if n = 0 then e.term else ct) s2 lc2 ct2 h
      · exact ih (i + 1) s (some (i, e.body)) (if n = 0 then e.term else ct) s2 lc2 ct2 h

/-- The configuration-commit step touches only the committed configuration
and the queued configuration operations. -/
theorem confCommitStep_inv (s2 : SrvState) (ic : Nat × LogBody) :
    viewB (confCommitStep s2 ic) = viewB s2 ∧
    (confCommitStep s2 ic).commitIndex = s2.commitIndex := by
  unfold confCommitStep commitTransition viewB
  split_ifs with hj
  · rcases hn : s2.confLatest.next with _ | nxt <;> simp [hn]
  · exact ⟨rfl, rfl⟩

/-- The cap of commit-and-apply is the minimum of the proposed index and
the last log index. -/
theorem capCommitIndex_eq_min (s : SrvState) (ci : Nat) :
    capCommitIndex s ci = min ci (logLastIndex s.log) := by
  unfold capCommitIndex
  split_ifs <;> omega

/-- Characterization of `Server.commitAndApply` on success: either
everything up to the capped index was already applied and the state is
unchanged, or the commit index and the applied index both end at the cap;
the log, term, role, leader and latest configuration are never touched. -/
theorem commitAndApply_inv (s : SrvState) (ci : Nat) (s' : SrvState)
    (h : commitAndApply s ci = some s') :
    viewB s' = viewB s ∧
    ((s.lastAppliedIndex = capCommitIndex s ci ∧ s' = s) ∨
      (s.lastAppliedIndex < capCommitIndex s ci ∧
        s'.commitIndex = capCommitIndex s ci ∧
        s'.lastAppliedIndex = capCommitIndex s ci)) := by
  unfold commitAndApply at h
  split_ifs at h with h1 h2
  · simp only [Option.some.injEq] at h
    rw [← h]
    exact ⟨rfl, Or.inl ⟨h1, rfl⟩⟩
  · split at h
    · exact Option.noConfusion h
    · rename_i s2 ct har
      have hr := applyRangeAux_inv _ _ _ _ _ _ _ _ har
      simp only [Option.some.injEq] at h
      rw [← h]
      refine ⟨?_, Or.inr ⟨by omega, ?_, rfl⟩⟩
      · show viewB { s2 with
          lastAppliedIndex := capCommitIndex s ci, lastAppliedTerm := ct } = viewB s
        have : viewB { s2 with
            lastAppliedIndex := capCommitIndex s ci, lastAppliedTerm := ct } = viewB s2 := rfl
        rw [this, hr.1]
        rfl
      · show ({ s2 with
          lastAppliedIndex := capCommitIndex s ci,
          lastAppliedTerm := ct } : SrvState).commitIndex = capCommitIndex s ci
        show s2.commitIndex = capCommitIndex s ci
        rw [hr.2.1]
    · rename_i s2 ic ct har
      have hr := applyRangeAux_inv _ _ _ _ _ _ _ _ har
      have hc := confCommitStep_inv s2 ic
      simp only [Option.some.injEq] at h
      rw [← h]
      refine ⟨?_, Or.inr ⟨by omega, ?_, rfl⟩⟩
      · show viewB { confCommitStep s2 ic with
          lastAppliedIndex := capCommitIndex s ci, lastAppliedTerm := ct } = viewB s
        have : viewB { confCommitStep s2 ic with
            lastAppliedIndex := capCommitIndex s ci, lastAppliedTerm := ct } =
            viewB (confCommitStep s2 ic) := rfl
        rw [this, hc.1, hr.1]
        rfl
      · show (confCommitStep s2 ic).commitIndex = capCommitIndex s ci
        rw [hc.2, hr.2.1]

/-- Inversion of a successful AppendEntries: the request term is not
stale, the previous-log check passed, and the final state is the entries
step followed by the commit step applied to the prelude state. -/
theorem handleAppendEntries_inv (s0 : SrvState) (req : AppendEntriesRequest)
    (s' : SrvState) (r' : AppendEntriesResponse)
    (h : handleAppendEntries s0 req = some (s', r')) (hsucc : r'.success = true) :
    ∃ s3, ¬ req.term < s0.currentTerm ∧ aePrevOk (aePrelude s0 req) req = true ∧
      aeEntriesStep (aePrelude s0 req) req.entries = some s3 ∧
      aeCommitStep s3 req.leaderCommit = some s' ∧
      r' = AppendEntriesResponse.mk s0.id (aePrelude s0 req).currentTerm true := by
  unfold handleAppendEntries at h
  split_ifs at h with h1 h2
  · simp only [Option.some.injEq, Prod.mk.injEq] at h
    rw [← h.2] at hsucc
    exact absurd hsucc (by simp)
  · simp only [Option.some.injEq, Prod.mk.injEq] at h
    rw [← h.2] at hsucc
    exact absurd hsucc (by simp)
  · split at h
    · exact Option.noConfusion h
    · rename_i s3 hstep
      split at h
      · exact Option.noConfusion h
      · rename_i s4 hcommit
        simp only [Option.some.injEq, Prod.mk.injEq] at h
        refine ⟨s3, h1, ?_, hstep, ?_, ?_⟩
        · rcases hb : aePrevOk (aePrelude s0 req) req with _ | _
          · exact absurd hb h2
          · rfl
        · rw [h.1] at hcommit; exact hcommit
        · exact h.2.symm

/-- C4: for every AppendEntries that passes the term and previous-log
checks (the handler replies success) with leaderCommit ahead of the local
commit index, provided the standard commit-state invariant
lastApplied <= commitIndex and that the entries step left the log no
shorter than the commit index, the commit index ends at
min(leaderCommit, lastLogIndex) and the triggered apply step brings
lastApplied up to the new commit index; when leaderCommit is not ahead,
the commit index is unchanged. -/
theorem appendEntries_commit_advance (s : SrvState) (req : AppendEntriesRequest)
    (s' : SrvState) (r' : AppendEntriesResponse)
    (h : handleAppendEntries s req = some (s', r'))
    (hsucc : r'.success = true) :
    (req.leaderCommit > s.commitIndex →
      s.lastAppliedIndex ≤ s.commitIndex →
      s.commitIndex ≤ logLastIndex s'.log →
      s'.commitIndex = min req.leaderCommit (logLastIndex s'.log) ∧
        s'.lastAppliedIndex = s'.commitIndex) ∧
    (¬ req.leaderCommit > s.commitIndex → s'.commitIndex = s.commitIndex) := by
  obtain ⟨s3, hterm, hprev, hstep, hcommit, hresp⟩ :=
    handleAppendEntries_inv s req s' r' h hsucc
  have hpre := aePrelude_viewC s req
  simp only [viewC, Prod.mk.injEq] at hpre
  have hA := aeEntriesStep_viewA _ _ _ hstep
  simp only [viewA, Prod.mk.injEq] at hA
  have hs3commit : s3.commitIndex = s.commitIndex := by
    rw [hA.2.2.2.1, hpre.2.2.1]
  have hs3applied : s3.lastAppliedIndex = s.lastAppliedIndex := by
    rw [hA.2.2.2.2.1, hpre.2.2.2.1]
  unfold aeCommitStep at hcommit
  by_cases hlc : req.leaderCommit > s3.commitIndex
  · rw [if_pos hlc] at hcommit
    have hinv := commitAndApply_inv s3 req.leaderCommit s' hcommit
    have hcap := capCommitIndex_eq_min s3 req.leaderCommit
    have hlogB : s'.log = s3.log := by
      have := hinv.1
      simp only [viewB, Prod.mk.injEq] at this
      exact this.2.2.2.1
    constructor
    · intro hgt hinv1 hinv2
      rw [hlogB] at hinv2
      rcases hinv.2 with ⟨heq, hid⟩ | ⟨hlt, hc, ha⟩
      · subst hid
        rw [hlogB]
        constructor <;> omega
      · rw [hlogB]
        constructor <;> omega
    · intro hn
      rw [hs3commit] at hlc
      omega
  · rw [if_neg hlc] at hcommit
    simp only [Option.some.injEq] at hcommit
    subst hcommit
    rw [hs3commit] at hlc ⊢
    exact ⟨fun hgt => absurd hgt hlc, fun _ => rfl⟩

/-- Concrete follower used by the C4 witness. -/
def c4State : SrvState := { baseState with currentTerm := 1, log := [⟨1, cmdBody 7⟩] }

/-- Concrete heartbeat with leaderCommit 5 used by the C4 witness. -/
def c4Req : AppendEntriesRequest := ⟨1, "L", 0, 0, [], 5⟩

/-- The state the C4 witness ends in. -/
def c4After : SrvState :=
  { baseState with
      currentTerm := 1
      log := [⟨1, cmdBody 7⟩]
      commitIndex := 1
      lastAppliedIndex := 1
      lastAppliedTerm := 1
      smApplied := [[7]] }

/-- Witness for the C4 theorem at a concrete input: leaderCommit 5 against
a one-entry log advances commitIndex to min(5, 1) = 1 and applies up to
it. -/
theorem appendEntries_commit_advance_witness :
    c4Req.leaderCommit > c4State.commitIndex ∧
    (c4After.commitIndex = min c4Req.leaderCommit (logLastIndex c4After.log) ∧
      c4After.lastAppliedIndex = c4After.commitIndex) := by
  refine ⟨by decide, ?_⟩
  have h := appendEntries_commit_advance c4State c4Req c4After ⟨"a", 1, true⟩
    (by decide) (by decide)
  exact h.1 (by decide) (by decide) (by decide)

/-- One vote-affecting operation keeps the vote summary's term within the
current term, never lowers it, and any vote it records lies strictly above
the previous summary term and at most at the new one. -/
theorem voteStep_records (s : SrvState) (op : VoteOp)
    (hinv : s.lastVoteTerm ≤ s.currentTerm) :
    (voteStep s op).1.lastVoteTerm ≤ (voteStep s op).1.currentTerm ∧
    s.lastVoteTerm ≤ (voteStep s op).1.lastVoteTerm ∧
    (∀ ev ∈ (voteStep s op).2, s.lastVoteTerm < ev.1 ∧ ev.1 ≤ (voteStep s op).1.lastVoteTerm) ∧
    (voteStep s op).2.Pairwise (fun a b => a.1 < b.1) := by
  rcases op with req | _
  · unfold voteStep handleRequestVoteT
    by_cases h1 : req.term < s.currentTerm
    · simp [h1, hinv]
    · by_cases h2 : s.currentTerm ≤ s.lastVoteTerm
      · simp [h1, h2, hinv]
      · by_cases h3 : req.term > s.currentTerm
        · by_cases h4 : s.role ≠ ServerRole.Follower <;>
            simp only [h1, h2, h3, h4, if_true, if_false, ite_true, ite_false,
              alterTerm, stepdownFollower, setLastVoteSummary] <;>
          split_ifs <;> simp_all <;> omega
        · simp only [h1, h2, h3, if_true, if_false, ite_true, ite_false,
            setLastVoteSummary]
          split_ifs <;> simp_all
  · unfold voteStep startElectionVote alterTerm setLastVoteSummary
    simp
    omega

/-- Along any sequence of vote-affecting operations the recorded votes
carry strictly increasing terms, all above the starting summary term, and
the summary-term invariant is preserved. -/
theorem voteRun_records (ops : List VoteOp) :
    ∀ s : SrvState, s.lastVoteTerm ≤ s.currentTerm →
      ((voteRun s ops).2.Pairwise (fun a b => a.1 < b.1) ∧
        (∀ ev ∈ (voteRun s ops).2, s.lastVoteTerm < ev.1) ∧
        (voteRun s ops).1.lastVoteTerm ≤ (voteRun s ops).1.currentTerm ∧
        s.lastVoteTerm ≤ (voteRun s ops).1.lastVoteTerm) := by
  induction ops with
  | nil =>
    intro s h
    simp [voteRun, h]
  | cons op ops ih =>
    intro s h
    have hstep := voteStep_records s op h
    have hrec := ih (voteStep s op).1 hstep.1
    unfold voteRun
    refine ⟨?_, ?_, hrec.2.2.1, Nat.le_trans hstep.2.1 hrec.2.2.2⟩
    · rw [List.pairwise_append]
      refine ⟨hstep.2.2.2, hrec.1, ?_⟩
      intro a ha b hb
      have h1 := (hstep.2.2.1 a ha).2
      have h2 := hrec.2.1 b hb
      omega
    · intro ev hev
      rcases List.mem_append.mp hev with hl | hr
      · exact (hstep.2.2.1 ev hl).1
      · have := hrec.2.1 ev hr
        have := hstep.2.1
        omega

/-- Counterexample to C3 as stated: a server that has recorded its vote
for candidate A in its current term 2 rejects a RequestVote from the same
candidate A carrying the stale term 1, so "granted iff candidateId equals
the recorded candidate" fails without a term restriction. -/
theorem requestVote_stale_term_match_rejected :
    ({ baseState with currentTerm := 2, lastVoteTerm := 2, lastVoteCandidate := "A" }
        : SrvState).lastVoteTerm =
      ({ baseState with currentTerm := 2, lastVoteTerm := 2, lastVoteCandidate := "A" }
        : SrvState).currentTerm ∧
    ({ baseState with currentTerm := 2, lastVoteTerm := 2, lastVoteCandidate := "A" }
        : SrvState).lastVoteCandidate = "A" ∧
    (handleRequestVote
        { baseState with currentTerm := 2, lastVoteTerm := 2, lastVoteCandidate := "A" }
        ⟨1, "A", 5, 5⟩).2.granted = false := by
  decide

/-- C3 (amended): across every sequence of RequestVote invocations and
election self-votes started from a state satisfying the persistent
invariant lastVoteTerm <= currentTerm, the recorded vote summary names at
most one candidate per term; and a RequestVote whose term is not stale
arriving after a vote has been recorded for the current term is granted
exactly when its candidateId equals the recorded candidate (a stale-term
request is rejected regardless of the candidate). -/
theorem vote_uniqueness_per_term (s0 : SrvState) (ops : List VoteOp)
    (s : SrvState) (req : RequestVoteRequest)
    (h0 : s0.lastVoteTerm ≤ s0.currentTerm)
    (hvoted : s.currentTerm ≤ s.lastVoteTerm)
    (hterm : s.currentTerm ≤ req.term) :
    ((voteRun s0 ops).2.Pairwise (fun a b => a.1 = b.1 → a.2 = b.2)) ∧
    ((handleRequestVote s req).2.granted = true ↔ s.lastVoteCandidate = req.candidateId) := by
  constructor
  · exact ((voteRun_records ops s0 h0).1).imp
      (fun h heq => absurd heq (Nat.ne_of_lt h))
  · unfold handleRequestVote handleRequestVoteT
    rw [if_neg (Nat.not_lt.mpr hterm), if_pos hvoted]
    simp

/-- Witness for the C3 theorem: an election self-vote followed by a
RequestVote, and a server that granted term 2 to candidate A granting a
repeat request from A. -/
theorem vote_uniqueness_per_term_witness :
    ((voteRun baseState [VoteOp.electSelf, VoteOp.requestVote ⟨1, "b", 0, 0⟩]).2.Pairwise
      (fun a b => a.1 = b.1 → a.2 = b.2)) ∧
    ((handleRequestVote
        { baseState with currentTerm := 2, lastVoteTerm := 2, lastVoteCandidate := "A" }
        ⟨2, "A", 0, 0⟩).2.granted = true ↔
      ({ baseState with currentTerm := 2, lastVoteTerm := 2, lastVoteCandidate := "A" }
        : SrvState).lastVoteCandidate = "A") :=
  vote_uniqueness_per_term baseState [VoteOp.electSelf, VoteOp.requestVote ⟨1, "b", 0, 0⟩]
    { baseState with currentTerm := 2, lastVoteTerm := 2, lastVoteCandidate := "A" }
    ⟨2, "A", 0, 0⟩ (by decide) (by decide) (by decide)

/-- The conflict scan stops cleanly at an entry past the last log index. -/
theorem scanEntries_stop (log : List LogEntry) (L : Nat) (e : ReqEntry)
    (rest : List ReqEntry) (i : Nat) (h : e.index > L) :
    scanEntries log L (e :: rest) i = some (i, 0) := by
  simp [scanEntries, h]

/-- The conflict scan walks past a block of entries that are all present
with matching terms. -/
theorem scanEntries_append_matching (log : List LogEntry) (L : Nat) :
    ∀ (es1 es2 : List ReqEntry) (i : Nat),
      (∀ (j : Nat) (e : ReqEntry), es1[j]? = some e → e.index ≤ L ∧
        ∃ l, logEntryAt log e.index = some l ∧ l.term = e.term) →
      scanEntries log L (es1 ++ es2) i = scanEntries log L es2 (i + es1.length) := by
  intro es1
  induction es1 with
  | nil => intro es2 i h; simp
  | cons e rest ih =>
    intro es2 i h
    obtain ⟨hle, l, hl, hterm⟩ := h 0 e (by simp)
    have hrest : ∀ (j : Nat) (e1 : ReqEntry), rest[j]? = some e1 → e1.index ≤ L ∧
        ∃ l1, logEntryAt log e1.index = some l1 ∧ l1.term = e1.term := by
      intro j e1 hj
      exact h (j + 1) e1 (by simpa using hj)
    calc scanEntries log L (e :: (rest ++ es2)) i
        = scanEntries log L (rest ++ es2) (i + 1) := by
          simp only [scanEntries, hl]
          rw [if_neg (Nat.not_lt.mpr hle), if_neg (fun hx => hx hterm)]
      _ = scanEntries log L es2 (i + 1 + rest.length) := ih es2 (i + 1) hrest
      _ = scanEntries log L es2 (i + (rest.length + 1)) := by
          rw [Nat.add_right_comm, Nat.add_assoc]
      _ = scanEntries log L es2 (i + (e :: rest).length) := by simp

theorem natArith1 {i j fA : Nat} (h : i + (j + 1) < fA) : i + 1 + j < fA := by omega

theorem natArith2 {i fA : Nat} (h : i + 1 ≤ fA) : fA - i = (fA - (i + 1)) + 1 := by omega

theorem natArith3 {i fA n : Nat} (h1 : i + 1 ≤ fA) (h : n = fA - (i + 1)) :
    n + 1 = fA - i := by omega

theorem natArith4 {i fA n : Nat} (h : fA - (i + 1) ≤ n) : fA - i ≤ n + 1 := by omega

/-- Inversion of the conflict scan: the entries before the returned first
append position are present with matching terms; a zero clean-up index
means the entries ran out or left the log range; a non-zero clean-up index
is the index of the first conflicting entry. -/
theorem scanEntries_inv (log : List LogEntry) (L : Nat) :
    ∀ (es : List ReqEntry) (i fA c : Nat),
      scanEntries log L es i = some (fA, c) →
      i ≤ fA ∧ fA - i ≤ es.length ∧
      (∀ (j : Nat) (e : ReqEntry), es[j]? = some e → i + j < fA →
        e.index ≤ L ∧ ∃ l, logEntryAt log e.index = some l ∧ l.term = e.term) ∧
      (c = 0 → es.length = fA - i ∨ (∃ e, es[fA - i]? = some e ∧ e.index > L)) ∧
      (c ≠ 0 → ∃ e l, es[fA - i]? = some e ∧ c = e.index ∧ e.index ≤ L ∧
        logEntryAt log e.index = some l ∧ l.term ≠ e.term) := by
  intro es
  induction es with
  | nil =>
    intro i fA c h
    simp only [scanEntries, Option.some.injEq, Prod.mk.injEq] at h
    obtain ⟨h1, h2⟩ := h
    subst h1; subst h2
    refine ⟨Nat.le_refl i, by simp, ?_, fun _ => Or.inl (by simp), fun hc => absurd rfl hc⟩
    intro j e hj
    exact absurd hj (by simp)
  | cons e rest ih =>
    intro i fA c h
    by_cases hgt : e.index > L
    · rw [scanEntries_stop log L e rest i hgt] at h
      simp only [Option.some.injEq, Prod.mk.injEq] at h
      obtain ⟨h1, h2⟩ := h
      subst h1; subst h2
      refine ⟨Nat.le_refl i, by simp, ?_, fun _ => Or.inr ⟨e, by simp, hgt⟩,
        fun hc => absurd rfl hc⟩
      intro j e1 hj hlt
      omega
    · rcases hl : logEntryAt log e.index with _ | l
      · exfalso
        have hx : scanEntries log L (e :: rest) i = none := by
          simp [scanEntries, hgt, hl]
        rw [hx] at h
        exact Option.noConfusion h
      · by_cases hterm : l.term ≠ e.term
        · have hne : e.index ≠ 0 := by
            intro h0
            rw [h0] at hl
            simp [logEntryAt] at hl
          have hx : scanEntries log L (e :: rest) i = some (i, e.index) := by
            simp only [scanEntries, hl]
            rw [if_neg hgt, if_pos hterm]
          rw [hx] at h
          simp only [Option.some.injEq, Prod.mk.injEq] at h
          obtain ⟨h1, h2⟩ := h
          subst h1
          refine ⟨Nat.le_refl i, by simp, ?_, ?_, ?_⟩
          · intro j e1 hj hlt
            omega
          · intro hc
            rw [hc] at h2
            exact absurd h2 hne
          · intro _
            refine ⟨e, l, by simp, h2.symm, Nat.le_of_not_lt hgt, hl, hterm⟩
        · have hterm2 : l.term = e.term := by
            by_contra hx
            exact hterm hx
          clear hterm
          have hstep : scanEntries log L (e :: rest) i =
              scanEntries log L rest (i + 1) := by
            simp only [scanEntries, hl]
            rw [if_neg hgt, if_neg (fun hx => hx hterm2)]
          rw [hstep] at h
          obtain ⟨ih1, ih2, ih3, ih4, ih5⟩ := ih (i + 1) fA c h
          refine ⟨Nat.le_of_succ_le ih1,
            by simp only [List.length_cons]; exact natArith4 ih2, ?_, ?_, ?_⟩
          · intro j e1 hj hlt
            rcases j with _ | j'
            · simp only [List.getElem?_cons_zero, Option.some.injEq] at hj
              subst hj
              exact ⟨Nat.le_of_not_lt hgt, l, hl, hterm2⟩
            · exact ih3 j' e1 (by simpa using hj) (natArith1 hlt)
          · intro hc
            rcases ih4 hc with h4 | ⟨e1, he1, hgt1⟩
            · left
              simp only [List.length_cons]
              exact natArith3 ih1 h4
            · right
              refine ⟨e1, ?_, hgt1⟩
              rw [natArith2 ih1]
              simpa using he1
          · intro hc
            obtain ⟨e1, l1, he1, hc1, hle1, hl1, ht1⟩ := ih5 hc
            refine ⟨e1, l1, ?_, hc1, hle1, hl1, ht1⟩
            rw [natArith2 ih1]
            simpa using he1

/-- A successful appendLogs body list stays successful after dropping its
head (the last configuration body, when any, survives in the suffix or
disappears entirely). -/
theorem appendFails_cons {b : LogBody} {rest : List LogBody}
    (h : appendFails (b :: rest) = false) : appendFails rest = false := by
  unfold appendFails
  rcases hlc : lastConfIdx? rest with _ | j
  · rfl
  · have hbc : lastConfIdx? (b :: rest) = some (j + 1) := by
      unfold lastConfIdx?
      rw [hlc]
    unfold appendFails at h
    rw [hbc] at h
    simpa using h

/-- A successful appendLogs body list stays successful after dropping any
prefix. -/
theorem appendFails_drop (n : Nat) :
    ∀ bodies : List LogBody, appendFails bodies = false →
      appendFails (bodies.drop n) = false := by
  induction n with
  | zero => intro bodies h; simpa using h
  | succ n ih =>
    intro bodies h
    rcases bodies with _ | ⟨b, rest⟩
    · simpa using h
    · rw [List.drop_succ_cons]
      exact ih rest (appendFails_cons h)


/-- Scanning a block of entries that sit in the log exactly as a stamped
suffix, then truncating at the reported conflict and appending the
remaining bodies, reproduces the log unchanged. -/
theorem tailScan_recombine (t : SrvState) :
    ∀ (tail : List ReqEntry) (P : List LogEntry) (i : Nat),
      t.log = P ++ tail.map (fun e => LogEntry.mk t.currentTerm e.body) →
      (∀ (j : Nat) (e : ReqEntry), tail[j]? = some e → e.index = P.length + 1 + j) →
      appendFails (tail.map (fun e => e.body.copy)) = false →
      ∃ fA2 c2, scanEntries t.log (logLastIndex t.log) tail i = some (fA2, c2) ∧
        i ≤ fA2 ∧
        ∃ r, appendLogs (aeTruncate t c2)
            ((tail.drop (fA2 - i)).map (fun e => e.body.copy)) = some r ∧
          r.2.log = t.log := by
  intro tail
  induction tail with
  | nil =>
    intro P i hlog hwf hok
    refine ⟨i, 0, rfl, Nat.le_refl i, ?_⟩
    have htr : aeTruncate t 0 = t := by
      unfold aeTruncate
      rw [if_neg (by omega)]
    rw [htr]
    refine ⟨(appendLogsMetas t [], { t with log := t.log ++ appendLogsEntries t [] }),
      ?_, ?_⟩
    · rw [Nat.sub_self]
      rfl
    · simp [appendLogsEntries]
  | cons e rest ih =>
    intro P i hlog hwf hok
    have hidx : e.index = P.length + 1 := by simpa using hwf 0 e (by simp)
    have hL : logLastIndex t.log = P.length + (rest.length + 1) := by
      rw [hlog]
      simp [logLastIndex]
    have hgt : ¬ e.index > logLastIndex t.log := by
      rw [hidx, hL]
      exact Nat.not_lt.mpr (Nat.add_le_add_left (Nat.succ_le_succ (Nat.zero_le _)) _)
    have hlookup : logEntryAt t.log e.index = some (LogEntry.mk t.currentTerm e.body) := by
      rw [hidx]
      unfold logEntryAt
      rw [if_neg (Nat.succ_ne_zero P.length), Nat.add_sub_cancel, hlog,
        List.getElem?_append_right (Nat.le_refl P.length)]
      simp
    have hokRest : appendFails (rest.map (fun e => e.body.copy)) = false :=
      appendFails_cons (by simpa using hok)
    by_cases hterm : t.currentTerm = e.term
    · have hstep : scanEntries t.log (logLastIndex t.log) (e :: rest) i =
          scanEntries t.log (logLastIndex t.log) rest (i + 1) := by
        simp only [scanEntries, hlookup]
        rw [if_neg hgt, if_neg (fun hx => hx hterm)]
      have hlog2 : t.log = (P ++ [LogEntry.mk t.currentTerm e.body]) ++
          rest.map (fun e => LogEntry.mk t.currentTerm e.body) := by
        rw [hlog]
        simp
      have hwf2 : ∀ (j : Nat) (e1 : ReqEntry), rest[j]? = some e1 →
          e1.index = (P ++ [LogEntry.mk t.currentTerm e.body]).length + 1 + j := by
        intro j e1 hj
        have hx := hwf (j + 1) e1 (by simpa using hj)
        simpa [List.length_append, Nat.add_assoc, Nat.add_comm, Nat.add_left_comm] using hx
      obtain ⟨fA2, c2, hscan, hge, r, happ, hrlog⟩ :=
        ih (P ++ [LogEntry.mk t.currentTerm e.body]) (i + 1) hlog2 hwf2 hokRest
      refine ⟨fA2, c2, by rw [hstep]; exact hscan, Nat.le_of_succ_le hge, r, ?_, hrlog⟩
      rw [natArith2 hge, List.drop_succ_cons]
      exact happ
    · have hscan : scanEntries t.log (logLastIndex t.log) (e :: rest) i =
          some (i, e.index) := by
        simp only [scanEntries, hlookup]
        rw [if_neg hgt, if_pos (fun hx => hterm hx)]
      have hdel : logDeleteAfter t.log e.index = P := by
        unfold logDeleteAfter
        rw [hidx, Nat.add_sub_cancel, hlog, List.take_left]
      have htr : aeTruncate t e.index = { t with log := P } := by
        unfold aeTruncate
        rw [if_pos (by rw [hidx]; exact Nat.succ_pos P.length), hdel]
      rcases happ : appendLogs { t with log := P }
          ((e :: rest).map (fun e => e.body.copy)) with _ | r
      · rw [appendLogs_fails_iff] at happ
        rw [happ] at hok
        exact absurd hok (by simp)
      · obtain ⟨rm, rs⟩ := r
        have hinv := appendLogs_inv { t with log := P } _ rm rs happ
        refine ⟨i, e.index, hscan, Nat.le_refl i, (rm, rs), ?_, ?_⟩
        · rw [htr, Nat.sub_self, List.drop_zero]
          exact happ
        · rw [hinv.1, hlog]
          simp [appendLogsEntries, LogBody.copy, List.map_map]

/-- Entry lookup at an index written as p + 1 + j is the positional lookup
at p + j. -/
theorem logEntryAt_succ (log : List LogEntry) (p j : Nat) :
    logEntryAt log (p + 1 + j) = log[p + j]? := by
  unfold logEntryAt
  rw [if_neg (by rw [Nat.add_right_comm]; exact Nat.succ_ne_zero _), Nat.add_right_comm,
    Nat.add_sub_cancel]

/-- Truncating at clean-up index 0 does nothing. -/
theorem aeTruncate_zero (t : SrvState) : aeTruncate t 0 = t := by
  unfold aeTruncate
  rw [if_neg (by omega)]

/-- Replaying the entries step against a state whose log ends exactly at
the matched prefix, with bodies whose append fails, leaves the state
untouched: the scan stops cleanly at the prefix boundary and the failing
append is ignored. -/
theorem aeEntriesStep_replay_fail (t : SrvState) (es : List ReqEntry) (p fA : Nat)
    (hne : es ≠ [])
    (hwf : ∀ (j : Nat) (e : ReqEntry), es[j]? = some e → e.index = p + 1 + j)
    (hfA : fA ≤ es.length)
    (hP : t.log.length = p + fA)
    (hpre : ∀ (j : Nat) (e : ReqEntry), j < fA → es[j]? = some e →
      ∃ l, t.log[p + j]? = some l ∧ l.term = e.term)
    (hfail : appendFails ((es.drop fA).map (fun e => e.body.copy)) = true) :
    aeEntriesStep t es = some t := by
  rcases es with _ | ⟨e0, rest0⟩
  · exact absurd rfl hne
  have hL : logLastIndex t.log = p + fA := hP
  have happNone : appendLogs (aeTruncate t 0)
      (((e0 :: rest0).drop fA).map (fun e => e.body.copy)) = none := by
    rw [aeTruncate_zero]
    rcases hres : appendLogs t (((e0 :: rest0).drop fA).map (fun e => e.body.copy)) with _ | r
    · exact hres
    · have : appendLogs t (((e0 :: rest0).drop fA).map (fun e => e.body.copy)) ≠ none := by
        rw [hres]
        exact Option.noConfusion
      rw [Ne, appendLogs_fails_iff, hfail] at this
      exact absurd rfl this
  rcases Nat.eq_zero_or_pos fA with hfz | hfpos
  · subst hfz
    have hguard : ¬ e0.index ≤ logLastIndex t.log := by
      rw [hwf 0 e0 (by simp), hL]
      omega
    have hscan : (if e0.index ≤ logLastIndex t.log then
        scanEntries t.log (logLastIndex t.log) (e0 :: rest0) 0
      else some (0, 0)) = some (0, 0) := by rw [if_neg hguard]
    simp only [aeEntriesStep, hscan, happNone]
    rw [aeTruncate_zero]
  · have hguard : e0.index ≤ logLastIndex t.log := by
      rw [hwf 0 e0 (by simp), hL]
      omega
    have hprefix : ∀ (j : Nat) (e : ReqEntry), ((e0 :: rest0).take fA)[j]? = some e →
        e.index ≤ logLastIndex t.log ∧
        ∃ l, logEntryAt t.log e.index = some l ∧ l.term = e.term := by
      intro j e hj
      have hjlt : j < fA := by
        have hb := (List.getElem?_eq_some.mp hj).1
        rw [List.length_take] at hb
        omega
      have hje : (e0 :: rest0)[j]? = some e := by
        rw [← List.getElem?_take_of_lt hjlt]
        exact hj
      obtain ⟨l, hpl, hterm⟩ := hpre j e hjlt hje
      have hjb : p + j < t.log.length := (List.getElem?_eq_some.mp hpl).1
      refine ⟨?_, l, ?_, hterm⟩
      · rw [hwf j e hje, hL]
        omega
      · rw [hwf j e hje, logEntryAt_succ]
        exact hpl
    have hlenTake : ((e0 :: rest0).take fA).length = fA := by
      rw [List.length_take]
      exact Nat.min_eq_left hfA
    have hscan : scanEntries t.log (logLastIndex t.log) (e0 :: rest0) 0 =
        some (fA, 0) := by
      conv_lhs => rw [← List.take_append_drop fA (e0 :: rest0)]
      rw [scanEntries_append_matching t.log (logLastIndex t.log) _ _ 0 hprefix, hlenTake,
        Nat.zero_add]
      rcases hdrop : (e0 :: rest0).drop fA with _ | ⟨e1, rest1⟩
      · rfl
      · have he1 : (e0 :: rest0)[fA]? = some e1 := by
          have : ((e0 :: rest0).drop fA)[0]? = some e1 := by
            rw [hdrop, List.getElem?_cons_zero]
          rw [List.getElem?_drop, Nat.add_zero] at this
          exact this
        exact scanEntries_stop t.log (logLastIndex t.log) e1 rest1 fA
          (by rw [hwf fA e1 he1, hL]; omega)
    have hscanIf : (if e0.index ≤ logLastIndex t.log then
        scanEntries t.log (logLastIndex t.log) (e0 :: rest0) 0
      else some (0, 0)) = some (fA, 0) := by rw [if_pos hguard, hscan]
    simp only [aeEntriesStep, hscanIf, happNone]
    rw [aeTruncate_zero]

/-- Replaying the entries step against a state whose log is the matched
prefix followed by the already-stamped appended suffix reproduces the same
log: the scan matches through the old prefix and re-appends exactly the
entries already present. -/
theorem aeEntriesStep_replay (t : SrvState) (es : List ReqEntry) (p fA : Nat)
    (P : List LogEntry)
    (hne : es ≠ [])
    (hwf : ∀ (j : Nat) (e : ReqEntry), es[j]? = some e → e.index = p + 1 + j)
    (hfA : fA ≤ es.length)
    (hPlen : fA < es.length → P.length = p + fA)
    (hlog : t.log = P ++ (es.drop fA).map (fun e => LogEntry.mk t.currentTerm e.body))
    (hpre : ∀ (j : Nat) (e : ReqEntry), j < fA → es[j]? = some e →
      ∃ l, P[p + j]? = some l ∧ l.term = e.term)
    (hok : appendFails ((es.drop fA).map (fun e => e.body.copy)) = false) :
    ∃ t', aeEntriesStep t es = some t' ∧ t'.log = t.log := by
  rcases es with _ | ⟨e0, rest0⟩
  · exact absurd rfl hne
  have hPleL : P.length ≤ logLastIndex t.log := by
    rw [hlog]
    unfold logLastIndex
    rw [List.length_append]
    exact Nat.le_add_right _ _
  have hprefix : ∀ (j : Nat) (e : ReqEntry), ((e0 :: rest0).take fA)[j]? = some e →
      e.index ≤ logLastIndex t.log ∧
      ∃ l, logEntryAt t.log e.index = some l ∧ l.term = e.term := by
    intro j e hj
    have hjlt : j < fA := by
      have hb := (List.getElem?_eq_some.mp hj).1
      rw [List.length_take] at hb
      omega
    have hje : (e0 :: rest0)[j]? = some e := by
      rw [← List.getElem?_take_of_lt hjlt]
      exact hj
    obtain ⟨l, hpl, hterm⟩ := hpre j e hjlt hje
    have hjb : p + j < P.length := (List.getElem?_eq_some.mp hpl).1
    refine ⟨?_, l, ?_, hterm⟩
    · rw [hwf j e hje]
      omega
    · rw [hwf j e hje, logEntryAt_succ, hlog, List.getElem?_append_left hjb]
      exact hpl
  have hlenTake : ((e0 :: rest0).take fA).length = fA := by
    rw [List.length_take]
    exact Nat.min_eq_left hfA
  have hscan0 : scanEntries t.log (logLastIndex t.log) (e0 :: rest0) 0 =
      scanEntries t.log (logLastIndex t.log) ((e0 :: rest0).drop fA) fA := by
    conv_lhs => rw [← List.take_append_drop fA (e0 :: rest0)]
    rw [scanEntries_append_matching t.log (logLastIndex t.log) _ _ 0 hprefix, hlenTake,
      Nat.zero_add]
  rcases Nat.lt_or_ge fA (e0 :: rest0).length with hflt | hfge
  · -- some entries remain past the matched prefix
    have hPl : P.length = p + fA := hPlen hflt
    have hguard : e0.index ≤ logLastIndex t.log := by
      rw [hwf 0 e0 (by simp), hlog]
      unfold logLastIndex
      rw [List.length_append, List.length_map, List.length_drop]
      simp only [List.length_cons] at hflt hfA ⊢
      omega
    have hwfT : ∀ (j : Nat) (e : ReqEntry), ((e0 :: rest0).drop fA)[j]? = some e →
        e.index = P.length + 1 + j := by
      intro j e hj
      rw [List.getElem?_drop] at hj
      rw [hwf (fA + j) e hj, hPl]
      omega
    obtain ⟨fA2, c2, hscanT, hge2, r, happ, hrlog⟩ :=
      tailScan_recombine t ((e0 :: rest0).drop fA) P fA hlog hwfT hok
    have hscanIf : (if e0.index ≤ logLastIndex t.log then
        scanEntries t.log (logLastIndex t.log) (e0 :: rest0) 0
      else some (0, 0)) = some (fA2, c2) := by rw [if_pos hguard, hscan0, hscanT]
    have hdrop : ((e0 :: rest0).drop fA).drop (fA2 - fA) = (e0 :: rest0).drop fA2 := by
      rw [List.drop_drop, Nat.add_sub_cancel' hge2]
    refine ⟨r.2, ?_, hrlog⟩
    simp only [aeEntriesStep, hscanIf, ← hdrop, happ]
  · -- the whole request matched the prefix
    have hfk : fA = (e0 :: rest0).length := Nat.le_antisymm hfA hfge
    have hdnil : (e0 :: rest0).drop fA = [] :=
      List.drop_eq_nil_of_le (Nat.le_of_eq hfk.symm)
    rw [hdnil] at hlog
    simp only [List.map_nil, List.append_nil] at hlog
    have hfpos : 0 < fA := by
      rw [hfk]
      exact Nat.succ_pos _
    have hguard : e0.index ≤ logLastIndex t.log := by
      obtain ⟨l, hpl, _⟩ := hpre 0 e0 hfpos (by simp)
      have hjb : p + 0 < P.length := (List.getElem?_eq_some.mp hpl).1
      rw [hwf 0 e0 (by simp)]
      omega
    have hscanIf : (if e0.index ≤ logLastIndex t.log then
        scanEntries t.log (logLastIndex t.log) (e0 :: rest0) 0
      else some (0, 0)) = some (fA, 0) := by
      rw [if_pos hguard, hscan0, hdnil]
      rfl
    have happ : appendLogs (aeTruncate t 0) (([] : List ReqEntry).map (fun e => e.body.copy)) =
        some ([], { t with log := t.log ++ [] }) := by
      rw [aeTruncate_zero]
      simp [appendLogs, lastConfIdx?, appendLogsMetas, appendLogsEntries]
    refine ⟨{ t with log := t.log ++ [] }, ?_, by simp⟩
    simp only [aeEntriesStep, hscanIf, hdnil, happ]

/-- `commitAndApply` with nothing left to apply returns the state
unchanged. -/
theorem commitAndApply_of_applied (s : SrvState) (ci : Nat)
    (h : s.lastAppliedIndex = capCommitIndex s ci) : commitAndApply s ci = some s := by
  unfold commitAndApply
  rw [if_pos h]

/-- Stamping copied request bodies yields the request bodies stamped with
the server's current term. -/
theorem appendLogsEntries_copy (u : SrvState) (xs : List ReqEntry) :
    appendLogsEntries u (xs.map (fun e => e.body.copy)) =
    xs.map (fun e => LogEntry.mk u.currentTerm e.body) := by
  unfold appendLogsEntries LogBody.copy
  rw [List.map_map]
  rfl

/-- A successful `appendLogs` means the bodies do not make the append
fail. -/
theorem appendLogs_succ_ok (s : SrvState) (bodies : List LogBody) (r : List LogMeta × SrvState)
    (h : appendLogs s bodies = some r) : appendFails bodies = false := by
  cases hb : appendFails bodies
  · rfl
  · rw [← appendLogs_fails_iff s bodies] at hb
    rw [h] at hb
    exact Option.noConfusion hb

/-- Shape of the state after a successful entries step on a contiguous
request: there is a matched prefix length fA and a list P such that the
entries before fA matched P at their log positions, positions before
prevLogIndex are untouched, and the resulting log is either P followed by
the remaining entries stamped with the current term (append succeeded) or
P alone (append failed, P of full matched length). -/
theorem aeEntriesStep_shape (u : SrvState) (es : List ReqEntry) (p : Nat) (s3 : SrvState)
    (hne : es ≠ [])
    (hwf : ∀ (j : Nat) (e : ReqEntry), es[j]? = some e → e.index = p + 1 + j)
    (hple : p ≤ logLastIndex u.log)
    (hstep : aeEntriesStep u es = some s3) :
    ∃ fA P,
      fA ≤ es.length ∧
      (fA < es.length → P.length = p + fA) ∧
      (∀ (j : Nat) (e : ReqEntry), j < fA → es[j]? = some e →
        ∃ l, P[p + j]? = some l ∧ l.term = e.term) ∧
      (∀ (k : Nat), k < p → s3.log[k]? = u.log[k]?) ∧
      ((s3.log = P ++ (es.drop fA).map (fun e => LogEntry.mk u.currentTerm e.body) ∧
          appendFails ((es.drop fA).map (fun e => e.body.copy)) = false) ∨
        (s3.log = P ∧ P.length = p + fA ∧
          appendFails ((es.drop fA).map (fun e => e.body.copy)) = true)) := by
  rcases es with _ | ⟨e0, rest0⟩
  · exact absurd rfl hne
  have he0 : (e0 :: rest0)[0]? = some e0 := by simp
  simp only [aeEntriesStep] at hstep
  rcases hscan : (if e0.index ≤ logLastIndex u.log then
      scanEntries u.log (logLastIndex u.log) (e0 :: rest0) 0
    else some (0, 0)) with _ | ⟨fA, c⟩
  · rw [hscan] at hstep
    exact Option.noConfusion hstep
  rw [hscan] at hstep
  dsimp only at hstep
  by_cases hg : e0.index ≤ logLastIndex u.log
  · -- the scan ran
    rw [if_pos hg] at hscan
    obtain ⟨inv1, inv2, inv3, inv4, inv5⟩ :=
      scanEntries_inv u.log (logLastIndex u.log) (e0 :: rest0) 0 fA c hscan
    simp only [Nat.sub_zero] at inv2 inv4 inv5
    have hpreU : ∀ (j : Nat) (e : ReqEntry), j < fA → (e0 :: rest0)[j]? = some e →
        ∃ l, u.log[p + j]? = some l ∧ l.term = e.term := by
      intro j e hj hje
      obtain ⟨_, l, hl, ht⟩ := inv3 j e hje (by omega)
      rw [hwf j e hje, logEntryAt_succ] at hl
      exact ⟨l, hl, ht⟩
    by_cases hc : c = 0
    · subst hc
      rw [aeTruncate_zero] at hstep
      rcases inv4 rfl with hall | ⟨e1, he1, hgt1⟩
      · -- the whole request matched
        have hdnil : (e0 :: rest0).drop fA = [] :=
          List.drop_eq_nil_of_le (Nat.le_of_eq hall)
        rcases happ : appendLogs u (((e0 :: rest0).drop fA).map (fun e => e.body.copy))
            with _ | r
        · exfalso
          have hfa := (appendLogs_fails_iff u _).mp happ
          rw [hdnil] at hfa
          exact absurd hfa (by decide)
        · rw [happ] at hstep
          simp only [Option.some.injEq] at hstep
          obtain ⟨hlog3, _⟩ := appendLogs_inv u _ r.1 r.2 happ
          rw [hstep] at hlog3
          rw [hdnil] at hlog3
          simp only [List.map_nil] at hlog3
          have hlog3u : s3.log = u.log := by
            rw [hlog3]
            simp [appendLogsEntries]
          refine ⟨fA, u.log, by omega, fun hlt => absurd hlt (by omega), ?_, ?_,
            Or.inl ⟨?_, ?_⟩⟩
          · exact hpreU
          · intro k _
            rw [hlog3u]
          · rw [hdnil, hlog3u]
            simp
          · rw [hdnil]
            decide
      · -- matched up to an entry past the end of the log
        have hflt : fA < (e0 :: rest0).length := (List.getElem?_eq_some.mp he1).1
        have hLeq : logLastIndex u.log = p + fA := by
          have hidx : e1.index = p + 1 + fA := hwf fA e1 he1
          rcases Nat.eq_zero_or_pos fA with hf0 | hfpos
          · subst hf0
            omega
          · have hprev : fA - 1 < (e0 :: rest0).length := by omega
            have hep : (e0 :: rest0)[fA - 1]? = some ((e0 :: rest0)[fA - 1]) :=
              List.getElem?_eq_getElem hprev
            obtain ⟨l, hl, _⟩ := hpreU (fA - 1) _ (by omega) hep
            have hb := (List.getElem?_eq_some.mp hl).1
            unfold logLastIndex at hgt1 hple ⊢
            omega
        rcases happ : appendLogs u (((e0 :: rest0).drop fA).map (fun e => e.body.copy))
            with _ | r
        · rw [happ] at hstep
          simp only [Option.some.injEq] at hstep
          refine ⟨fA, u.log, by omega, fun _ => ?_, hpreU, ?_, Or.inr ⟨?_, ?_, ?_⟩⟩
          · unfold logLastIndex at hLeq
            omega
          · intro k _
            rw [← hstep]
          · rw [← hstep]
          · unfold logLastIndex at hLeq
            omega
          · exact (appendLogs_fails_iff u _).mp happ
        · rw [happ] at hstep
          simp only [Option.some.injEq] at hstep
          obtain ⟨hlog3, _⟩ := appendLogs_inv u _ r.1 r.2 happ
          rw [hstep] at hlog3
          rw [appendLogsEntries_copy] at hlog3
          refine ⟨fA, u.log, by omega, fun _ => ?_, hpreU, ?_, Or.inl ⟨hlog3, ?_⟩⟩
          · unfold logLastIndex at hLeq
            omega
          · intro k hk
            rw [hlog3]
            exact List.getElem?_append_left (by unfold logLastIndex at hLeq; omega)
          · exact appendLogs_succ_ok u _ r happ
    · -- conflict found
      obtain ⟨e1, l1, he1, hcix, hle1, hl1, hne1⟩ := inv5 hc
      have hidx : e1.index = p + 1 + fA := hwf fA e1 he1
      have hflt : fA < (e0 :: rest0).length := (List.getElem?_eq_some.mp he1).1
      have hcpos : c > 0 := by omega
      have hLge : p + 1 + fA ≤ logLastIndex u.log := by
        rw [← hidx]
        exact hle1
      have hlenOk : p + fA ≤ u.log.length := by
        unfold logLastIndex at hLge
        omega
      have htr : (aeTruncate u c).log = u.log.take (p + fA) := by
        unfold aeTruncate logDeleteAfter
        rw [if_pos hcpos]
        have : c - 1 = p + fA := by omega
        rw [this]
      have hPlen2 : (u.log.take (p + fA)).length = p + fA := by
        rw [List.length_take]
        exact Nat.min_eq_left hlenOk
      have hct : (aeTruncate u c).currentTerm = u.currentTerm := (aeTruncate_inv u c).2.2.1
      have hpreT : ∀ (j : Nat) (e : ReqEntry), j < fA → (e0 :: rest0)[j]? = some e →
          ∃ l, (u.log.take (p + fA))[p + j]? = some l ∧ l.term = e.term := by
        intro j e hj hje
        obtain ⟨l, hl, ht⟩ := hpreU j e hj hje
        refine ⟨l, ?_, ht⟩
        rw [List.getElem?_take_of_lt (by omega)]
        exact hl
      rcases happ : appendLogs (aeTruncate u c)
          (((e0 :: rest0).drop fA).map (fun e => e.body.copy)) with _ | r
      · rw [happ] at hstep
        simp only [Option.some.injEq] at hstep
        refine ⟨fA, u.log.take (p + fA), by omega, fun _ => hPlen2, hpreT, ?_,
          Or.inr ⟨?_, hPlen2, ?_⟩⟩
        · intro k hk
          rw [← hstep, htr]
          exact List.getElem?_take_of_lt (by omega)
        · rw [← hstep, htr]
        · exact (appendLogs_fails_iff _ _).mp happ
      · rw [happ] at hstep
        simp only [Option.some.injEq] at hstep
        obtain ⟨hlog3, _⟩ := appendLogs_inv (aeTruncate u c) _ r.1 r.2 happ
        rw [hstep] at hlog3
        rw [appendLogsEntries_copy, hct, htr] at hlog3
        refine ⟨fA, u.log.take (p + fA), by omega, fun _ => hPlen2, hpreT, ?_,
          Or.inl ⟨hlog3, ?_⟩⟩
        · intro k hk
          rw [hlog3]
          rw [List.getElem?_append_left (by omega)]
          exact List.getElem?_take_of_lt (by omega)
        · exact appendLogs_succ_ok _ _ r happ
  · -- first entry past the end of the log: everything is appended
    rw [if_neg hg] at hscan
    simp only [Option.some.injEq, Prod.mk.injEq] at hscan
    obtain ⟨hf0, hc0⟩ := hscan
    subst hf0
    subst hc0
    have hlen : u.log.length = p := by
      have hidx : e0.index = p + 1 := hwf 0 e0 he0
      unfold logLastIndex at hg hple
      omega
    rw [aeTruncate_zero] at hstep
    rcases happ : appendLogs u (((e0 :: rest0).drop 0).map (fun e => e.body.copy)) with _ | r
    · rw [happ] at hstep
      simp only [Option.some.injEq] at hstep
      refine ⟨0, u.log, Nat.zero_le _, fun _ => by omega, ?_, ?_, Or.inr ⟨?_, by omega, ?_⟩⟩
      · intro j e hj
        omega
      · intro k _
        rw [← hstep]
      · rw [← hstep]
      · exact (appendLogs_fails_iff u _).mp happ
    · rw [happ] at hstep
      simp only [Option.some.injEq] at hstep
      obtain ⟨hlog3, _⟩ := appendLogs_inv u _ r.1 r.2 happ
      rw [hstep] at hlog3
      rw [appendLogsEntries_copy] at hlog3
      refine ⟨0, u.log, Nat.zero_le _, fun _ => by omega, ?_, ?_, Or.inl ⟨hlog3, ?_⟩⟩
      · intro j e hj
        omega
      · intro k hk
        rw [hlog3]
        exact List.getElem?_append_left (by omega)
      · exact appendLogs_succ_ok u _ r happ

/-- Field extraction from a `viewA` equality. -/
theorem viewA_role {s t : SrvState} (h : viewA s = viewA t) : s.role = t.role :=
  congrArg (fun v => v.2.1) h

/-- Field extraction from a `viewA` equality. -/
theorem viewA_term {s t : SrvState} (h : viewA s = viewA t) : s.currentTerm = t.currentTerm :=
  congrArg (fun v => v.2.2.1) h

/-- Field extraction from a `viewA` equality. -/
theorem viewA_commit {s t : SrvState} (h : viewA s = viewA t) : s.commitIndex = t.commitIndex :=
  congrArg (fun v => v.2.2.2.1) h

/-- Field extraction from a `viewA` equality. -/
theorem viewA_applied {s t : SrvState} (h : viewA s = viewA t) :
    s.lastAppliedIndex = t.lastAppliedIndex :=
  congrArg (fun v => v.2.2.2.2.1) h

/-- Field extraction from a `viewA` equality. -/
theorem viewA_appliedTerm {s t : SrvState} (h : viewA s = viewA t) :
    s.lastAppliedTerm = t.lastAppliedTerm :=
  congrArg (fun v => v.2.2.2.2.2.1) h

/-- Field extraction from a `viewB` equality. -/
theorem viewB_role {s t : SrvState} (h : viewB s = viewB t) : s.role = t.role :=
  congrArg (fun v => v.2.1) h

/-- Field extraction from a `viewB` equality. -/
theorem viewB_term {s t : SrvState} (h : viewB s = viewB t) : s.currentTerm = t.currentTerm :=
  congrArg (fun v => v.2.2.1) h

/-- Field extraction from a `viewB` equality. -/
theorem viewB_log {s t : SrvState} (h : viewB s = viewB t) : s.log = t.log :=
  congrArg (fun v => v.2.2.2.1) h

/-- Field extraction from a `viewC` equality. -/
theorem viewC_log {s t : SrvState} (h : viewC s = viewC t) : s.log = t.log :=
  congrArg (fun v => v.2.1) h

/-- Field extraction from a `viewC` equality. -/
theorem viewC_commit {s t : SrvState} (h : viewC s = viewC t) : s.commitIndex = t.commitIndex :=
  congrArg (fun v => v.2.2.1) h

/-- Field extraction from a `viewC` equality. -/
theorem viewC_applied {s t : SrvState} (h : viewC s = viewC t) :
    s.lastAppliedIndex = t.lastAppliedIndex :=
  congrArg (fun v => v.2.2.2.1) h

/-- Field extraction from a `viewC` equality. -/
theorem viewC_appliedTerm {s t : SrvState} (h : viewC s = viewC t) :
    s.lastAppliedTerm = t.lastAppliedTerm :=
  congrArg (fun v => v.2.2.2.2.1) h

/-- C7 (amended): applying the same AppendEntries batch twice is a no-op
after the first success, for requests whose entries are numbered
contiguously from prevLogIndex + 1 (as a leader builds them): if handling
the request once succeeds, handling the identical request again from the
resulting state succeeds and leaves the log, the commit index, the applied
index and term, the current term and the role equal to the state after the
first handling.  (Without the contiguity restriction the claim fails, see
the counterexample.) -/
theorem appendEntries_idempotent (s0 : SrvState) (req : AppendEntriesRequest)
    (sA : SrvState) (rA : AppendEntriesResponse)
    (hwf : ∀ (j : Nat) (e : ReqEntry), req.entries[j]? = some e →
      e.index = req.prevLogIndex + 1 + j)
    (h1 : handleAppendEntries s0 req = some (sA, rA))
    (hsucc : rA.success = true) :
    ∃ sB rB, handleAppendEntries sA req = some (sB, rB) ∧ rB.success = true ∧
      sB.log = sA.log ∧ sB.commitIndex = sA.commitIndex ∧
      sB.lastAppliedIndex = sA.lastAppliedIndex ∧
      sB.lastAppliedTerm = sA.lastAppliedTerm ∧
      sB.currentTerm = sA.currentTerm ∧ sB.role = sA.role := by
  obtain ⟨s3, hstale, hprev, hstep3, hcommit3, hrA⟩ :=
    handleAppendEntries_inv s0 req sA rA h1 hsucc
  have hterm1 : (aePrelude s0 req).currentTerm = req.term := aePrelude_term s0 req hstale
  have hcase : (¬ req.leaderCommit > s3.commitIndex ∧ sA = s3) ∨
      (req.leaderCommit > s3.commitIndex ∧ sA = s3 ∧
        s3.lastAppliedIndex = capCommitIndex s3 req.leaderCommit) ∨
      (viewB sA = viewB s3 ∧
        sA.commitIndex = capCommitIndex s3 req.leaderCommit ∧
        sA.lastAppliedIndex = capCommitIndex s3 req.leaderCommit) := by
    unfold aeCommitStep at hcommit3
    split_ifs at hcommit3 with hlc
    · obtain ⟨hvb, hor⟩ := commitAndApply_inv s3 req.leaderCommit sA hcommit3
      rcases hor with ⟨happl, hAe⟩ | ⟨_, hc, ha⟩
      · exact Or.inr (Or.inl ⟨hlc, hAe, happl⟩)
      · exact Or.inr (Or.inr ⟨hvb, hc, ha⟩)
    · exact Or.inl ⟨hlc, (Option.some.inj hcommit3).symm⟩
  have hABlog : sA.log = s3.log := by
    rcases hcase with ⟨_, hAe⟩ | ⟨_, hAe, _⟩ | ⟨hvb, _, _⟩
    · rw [hAe]
    · rw [hAe]
    · exact viewB_log hvb
  have hABterm : sA.currentTerm = s3.currentTerm := by
    rcases hcase with ⟨_, hAe⟩ | ⟨_, hAe, _⟩ | ⟨hvb, _, _⟩
    · rw [hAe]
    · rw [hAe]
    · exact viewB_term hvb
  have hAterm : sA.currentTerm = req.term := by
    rw [hABterm, viewA_term (aeEntriesStep_viewA _ _ _ hstep3), hterm1]
  have hstale2 : ¬ req.term < sA.currentTerm := by
    rw [hAterm]
    exact Nat.lt_irrefl _
  have hterm2 : (aePrelude sA req).currentTerm = req.term := aePrelude_term sA req hstale2
  have hnb := aePrelude_noBump sA req (by rw [hAterm]; exact Nat.lt_irrefl _)
  have htlogA : (aePrelude sA req).log = s3.log := by
    rw [viewC_log (aePrelude_viewC sA req), hABlog]
  obtain ⟨s3', hstep2, hs3log2, hkeep⟩ : ∃ s3',
      aeEntriesStep (aePrelude sA req) req.entries = some s3' ∧
      s3'.log = (aePrelude sA req).log ∧
      (∀ (k : Nat), k < req.prevLogIndex →
        s3.log[k]? = (aePrelude s0 req).log[k]?) := by
    rcases hes : req.entries with _ | ⟨e0, rest0⟩
    · rw [hes] at hstep3
      simp only [aeEntriesStep, Option.some.injEq] at hstep3
      exact ⟨aePrelude sA req, rfl, rfl, fun k _ => by rw [← hstep3]⟩
    · rw [hes] at hstep3
      have hwf2 : ∀ (j : Nat) (e : ReqEntry), (e0 :: rest0)[j]? = some e →
          e.index = req.prevLogIndex + 1 + j := by
        intro j e hj
        exact hwf j e (by rw [hes]; exact hj)
      have hple : req.prevLogIndex ≤ logLastIndex (aePrelude s0 req).log := by
        unfold aePrevOk at hprev
        by_cases hp0 : req.prevLogIndex > 0
        · rw [if_pos hp0] at hprev
          rcases hl : logEntryAt (aePrelude s0 req).log req.prevLogIndex with _ | l
          · rw [hl] at hprev
            exact Bool.noConfusion hprev
          · unfold logEntryAt at hl
            rw [if_neg (by omega)] at hl
            have hb := (List.getElem?_eq_some.mp hl).1
            unfold logLastIndex
            omega
        · omega
      obtain ⟨fA, P, hfAle, hPlen, hpre, hkeep, hdisj⟩ :=
        aeEntriesStep_shape (aePrelude s0 req) (e0 :: rest0) req.prevLogIndex s3
          (by simp) hwf2 hple hstep3
      have htct : (aePrelude sA req).currentTerm = (aePrelude s0 req).currentTerm := by
        rw [hterm2, hterm1]
      rcases hdisj with ⟨hlogS, hok⟩ | ⟨hlogS, hPl, hfail⟩
      · obtain ⟨t2, ht2, htlog2⟩ := aeEntriesStep_replay (aePrelude sA req) (e0 :: rest0)
          req.prevLogIndex fA P (by simp) hwf2 hfAle hPlen
          (by rw [htlogA, hlogS, htct]) hpre hok
        exact ⟨t2, ht2, htlog2, hkeep⟩
      · have ht2 := aeEntriesStep_replay_fail (aePrelude sA req) (e0 :: rest0)
          req.prevLogIndex fA (by simp) hwf2 hfAle
          (by rw [htlogA, hlogS, hPl])
          (by
            intro j e hj hje
            obtain ⟨l, hl, hlt⟩ := hpre j e hj hje
            exact ⟨l, by rw [htlogA, hlogS]; exact hl, hlt⟩)
          hfail
        exact ⟨aePrelude sA req, ht2, rfl, hkeep⟩
  have hprev2 : aePrevOk (aePrelude sA req) req = true := by
    unfold aePrevOk at hprev ⊢
    by_cases hp0 : req.prevLogIndex > 0
    · rw [if_pos hp0] at hprev ⊢
      have hEq : logEntryAt (aePrelude sA req).log req.prevLogIndex =
          logEntryAt (aePrelude s0 req).log req.prevLogIndex := by
        unfold logEntryAt
        rw [if_neg (by omega), if_neg (by omega), htlogA]
        exact hkeep (req.prevLogIndex - 1) (by omega)
      rw [hEq]
      exact hprev
    · rw [if_neg hp0]
  have hs3commit2 : s3'.commitIndex = sA.commitIndex := by
    rw [viewA_commit (aeEntriesStep_viewA _ _ _ hstep2), viewC_commit (aePrelude_viewC sA req)]
  have hs3applied2 : s3'.lastAppliedIndex = sA.lastAppliedIndex := by
    rw [viewA_applied (aeEntriesStep_viewA _ _ _ hstep2),
      viewC_applied (aePrelude_viewC sA req)]
  have hs3log3 : s3'.log = s3.log := by
    rw [hs3log2, htlogA]
  have hcap2 : capCommitIndex s3' req.leaderCommit = capCommitIndex s3 req.leaderCommit := by
    rw [capCommitIndex_eq_min, capCommitIndex_eq_min, hs3log3]
  have hcommit2 : aeCommitStep s3' req.leaderCommit = some s3' := by
    unfold aeCommitStep
    split_ifs with hlc2
    · apply commitAndApply_of_applied
      rw [hcap2, hs3applied2]
      rw [hs3commit2] at hlc2
      rcases hcase with ⟨hnl, hAe⟩ | ⟨_, hAe, happl⟩ | ⟨_, _, haA⟩
      · rw [hAe] at hlc2
        exact absurd hlc2 hnl
      · rw [hAe]
        exact happl
      · exact haA
    · rfl
  refine ⟨s3', AppendEntriesResponse.mk sA.id (aePrelude sA req).currentTerm true,
    ?_, rfl, ?_, ?_, ?_, ?_, ?_, ?_⟩
  · unfold handleAppendEntries
    rw [if_neg hstale2, if_neg (show ¬ aePrevOk (aePrelude sA req) req = false by
      rw [hprev2]; decide)]
    simp only [hstep2, hcommit2]
  · rw [hs3log2, viewC_log (aePrelude_viewC sA req)]
  · rw [hs3commit2]
  · rw [hs3applied2]
  · rw [viewA_appliedTerm (aeEntriesStep_viewA _ _ _ hstep2),
      viewC_appliedTerm (aePrelude_viewC sA req)]
  · rw [viewA_term (aeEntriesStep_viewA _ _ _ hstep2), hnb.1]
  · rw [viewA_role (aeEntriesStep_viewA _ _ _ hstep2), hnb.2]

/-- Follower state for the C7 counterexample: term 1, three command
entries all of term 1. -/
def c7cexState : SrvState :=
  { baseState with
      currentTerm := 1
      log := [⟨1, cmdBody 1⟩, ⟨1, cmdBody 2⟩, ⟨1, cmdBody 3⟩] }

/-- Request for the C7 counterexample: term 2, prevLogIndex 3 with
matching prevLogTerm 1, and a single conflicting entry at index 2 of
term 2 (not contiguous with prevLogIndex). -/
def c7cexReq : AppendEntriesRequest := ⟨2, "L", 3, 1, [⟨2, 2, cmdBody 9⟩], 0⟩

/-- Counterexample to the unrestricted C7 claim: the first handling of
the request succeeds (it truncates the log at the conflicting index 2 and
appends), but re-handling the identical request from the resulting state
is rejected, because the truncated log no longer contains an entry at
prevLogIndex 3 and the previous-log check fails. -/
theorem appendEntries_reapply_rejected :
    (Option.map (fun pr => pr.2.success) (handleAppendEntries c7cexState c7cexReq)
      = some true) ∧
    (Option.map (fun pr =>
        Option.map (fun q => q.2.success) (handleAppendEntries pr.1 c7cexReq))
      (handleAppendEntries c7cexState c7cexReq) = some (some false)) := by
  exact ⟨by decide, by decide⟩

/-- Request for the C7 witness: one command entry at index 1, contiguous
with prevLogIndex 0. -/
def c7wReq : AppendEntriesRequest := ⟨1, "L", 0, 0, [⟨1, 1, cmdBody 7⟩], 0⟩

/-- State after the first handling of the C7 witness request. -/
def c7wAfter : SrvState := { baseState with currentTerm := 1, log := [⟨1, cmdBody 7⟩] }

theorem appendEntries_idempotent_witness :
    (∀ (j : Nat) (e : ReqEntry), c7wReq.entries[j]? = some e →
      e.index = c7wReq.prevLogIndex + 1 + j) ∧
    handleAppendEntries baseState c7wReq = some (c7wAfter, ⟨"a", 1, true⟩) ∧
    (∃ sB rB, handleAppendEntries c7wAfter c7wReq = some (sB, rB) ∧ rB.success = true ∧
      sB.log = c7wAfter.log ∧ sB.commitIndex = c7wAfter.commitIndex ∧
      sB.lastAppliedIndex = c7wAfter.lastAppliedIndex ∧
      sB.lastAppliedTerm = c7wAfter.lastAppliedTerm ∧
      sB.currentTerm = c7wAfter.currentTerm ∧ sB.role = c7wAfter.role) := by
  have hwfw : ∀ (j : Nat) (e : ReqEntry), c7wReq.entries[j]? = some e →
      e.index = c7wReq.prevLogIndex + 1 + j := by
    intro j e hj
    rcases j with _ | j
    · simp only [c7wReq, List.getElem?_cons_zero, Option.some.injEq] at hj
      rw [← hj]
      rfl
    · simp [c7wReq] at hj
  refine ⟨hwfw, by decide, ?_⟩
  exact appendEntries_idempotent baseState c7wReq c7wAfter ⟨"a", 1, true⟩
    hwfw (by decide) rfl
